import Mathlib

/-!
# go-vtwin front end: tokenizer and precedence parser

A shallow embedding of `src/lex/lexer.go` and `src/parser/parser.go`.

* Go strings are byte sequences: `List Nat`, every element a byte value below 256.
* Go `int` cursors are `Nat`; no terminating run of the tokenizer moves a cursor
  further than the input length plus the number of calls made.
* Loops carry a `fuel` argument that bounds the number of iterations; running out
  of fuel is the outcome `Fail.outOfFuel`, a Go `panic` is `Fail.panic msg`.
-/

namespace Vtwin

/-- Ways in which a call does not return a value. -/
inductive Fail where
  | panic (msg : String)
  | outOfFuel
deriving DecidableEq, Repr

deriving instance DecidableEq for Except

/-- The ASCII bytes of a string literal (all strings used below are ASCII). -/
def ascii (s : String) : List Nat := s.toList.map Char.toNat

/-! ## Token kinds -/

/-- Modelled from the spec: the `Token` enumeration is declared outside the two source
files. These are exactly the kinds the sources name; `ILLEGAL` comes first, so it is the
zero value of the type. -/
inductive Token where
  | ILLEGAL | EOF | IDENT | INT | STRING
  | ASSIGN | COLON | EQL | ADD | SUBT | NOT | NEQ | DIV | MULT
  | LEQ | LSS | GEQ | GTR | XOR | AND
  | SEMICOLON | LPAREN | RPAREN | COMMA | LBRACE | RBRACE | LBRACK | RBRACK
  | LET | CONST | RETURN
deriving DecidableEq, Repr

open Token

/-- Modelled from the spec: the keyword table behind `Lookup` is declared outside the
source files; spec 4.1(4) and 4.2 name the keywords `let`, `const` and `return`, every
other identifier text is a generic identifier. -/
def Lookup (ident : List Nat) : Token :=
  if ident = ascii "let" then LET
  else if ident = ascii "const" then CONST
  else if ident = ascii "return" then RETURN
  else IDENT

/-- A lexical unit (`Lexeme` in the tokenizer, `token.Token` in the parser). The field
`Kind` is the Go field `Type`. `Name` is `token.String()` of the kind it was built from,
kept symbolically (`none` is the empty string of a unit built field by field). -/
structure Lexeme where
  Kind : Token
  Literal : List Nat
  Name : Option Token
deriving DecidableEq, Repr

/-- Go `string(ch)` for a byte `ch`: the UTF-8 encoding of the code point `ch`. -/
def runeBytes (ch : Nat) : List Nat :=
  if ch < 128 then [ch] else [192 + ch / 64, 128 + ch % 64]

/-- The Go function `newToken(token, chars...)`; the parser calls it as
`token.NewToken`. -/
def newToken (token : Token) (chars : List Nat) : Lexeme :=
  { Kind := token
    Literal := chars.foldl (fun literal ch => literal ++ runeBytes ch) []
    Name := some token }

def isDigit (ch : Nat) : Bool := 48 ≤ ch && ch ≤ 57

def isLetter (ch : Nat) : Bool :=
  (97 ≤ ch && ch ≤ 122) || (65 ≤ ch && ch ≤ 90) || ch == 95

/-- The loop condition of `skipWhitespace`: space, tab, newline, carriage return. -/
def isWhitespace (ch : Nat) : Bool :=
  ch == 32 || ch == 9 || ch == 10 || ch == 13

/-! ## Tokenizer -/

/-- The tokenizer state (the unused `ast.Stmt` field is left out). -/
structure Lexer where
  input : List Nat
  position : Nat
  readPosition : Nat
  ch : Nat
deriving DecidableEq, Repr

namespace Lexer

def readChar (l : Lexer) : Lexer :=
  { l with
    ch := if l.readPosition ≥ l.input.length then 0 else l.input.getD l.readPosition 0
    position := l.readPosition
    readPosition := l.readPosition + 1 }

end Lexer

/-- The Go function `New(input)`. -/
def New (input : List Nat) : Lexer :=
  Lexer.readChar { input := input, position := 0, readPosition := 0, ch := 0 }

/-- The Go slice expression `s[lo:hi]`, which panics when the bounds are out of range. -/
def goSlice (s : List Nat) (lo hi : Nat) : Except Fail (List Nat) :=
  if lo ≤ hi ∧ hi ≤ s.length then .ok ((s.drop lo).take (hi - lo))
  else .error (.panic "slice bounds out of range")

namespace Lexer

def peekChar (l : Lexer) : Nat :=
  if l.readPosition ≥ l.input.length then 0 else l.input.getD l.readPosition 0

/-- The loop `for cond(l.ch) { l.readChar() }` shared by `skipWhitespace`,
`readIdentifier` and `readNumber`; one unit of fuel per evaluation of the condition. -/
def readWhile (cond : Nat → Bool) : Nat → Lexer → Except Fail Lexer
  | 0, _ => .error .outOfFuel
  | fuel + 1, l => if cond l.ch then readWhile cond fuel l.readChar else .ok l

def skipWhitespace (fuel : Nat) (l : Lexer) : Except Fail Lexer :=
  readWhile isWhitespace fuel l

def readIdentifier (fuel : Nat) (l : Lexer) : Except Fail (List Nat × Lexer) := do
  let pos := l.position
  let l ← readWhile isLetter fuel l
  let s ← goSlice l.input pos l.position
  pure (s, l)

def readNumber (fuel : Nat) (l : Lexer) : Except Fail (List Nat × Lexer) := do
  let position := l.position
  let l ← readWhile isDigit fuel l
  let s ← goSlice l.input position l.position
  pure (s, l)

/-- The loop `for { l.readChar(); if l.ch == '"' { break } }` of `readString`. -/
def readStringLoop : Nat → Lexer → Except Fail Lexer
  | 0, _ => .error .outOfFuel
  | fuel + 1, l =>
    let l := l.readChar
    if l.ch = 34 then .ok l else readStringLoop fuel l

def readString (fuel : Nat) (l : Lexer) : Except Fail (List Nat × Lexer) := do
  let position := l.position + 1
  let l ← readStringLoop fuel l
  let s ← goSlice l.input position l.position
  pure (s, l)

/-- The Go method `NextToken`: the unit returned and the state left behind. Every loop of
the call gets the same `fuel`. -/
def NextToken (fuel : Nat) (l : Lexer) : Except Fail (Lexeme × Lexer) := do
  let l ← l.skipWhitespace fuel
  if l.ch = 58 then -- ':'
    if l.peekChar = 61 then
      let ch := l.ch
      let l := l.readChar
      pure (newToken ASSIGN [ch, l.ch], l.readChar)
    else pure (newToken COLON [l.ch], l.readChar)
  else if l.ch = 61 then pure (newToken EQL [l.ch], l.readChar) -- '='
  else if l.ch = 43 then pure (newToken ADD [l.ch], l.readChar) -- '+'
  else if l.ch = 45 then pure (newToken SUBT [l.ch], l.readChar) -- '-'
  else if l.ch = 33 then -- '!'
    if l.peekChar = 61 then
      let ch := l.ch
      let l := l.readChar
      pure (newToken NEQ [ch, l.ch], l.readChar)
    else pure (newToken NOT [l.ch], l.readChar)
  else if l.ch = 47 then pure (newToken DIV [l.ch], l.readChar) -- '/'
  else if l.ch = 42 then pure (newToken MULT [l.ch], l.readChar) -- '*'
  else if l.ch = 60 then -- '<'
    if l.peekChar = 61 then
      let ch := l.ch
      let l := l.readChar
      pure (newToken LEQ [ch, l.ch], l.readChar)
    else pure (newToken LSS [l.ch], l.readChar)
  else if l.ch = 62 then -- '>'
    if l.peekChar = 61 then
      let ch := l.ch
      let l := l.readChar
      pure (newToken GEQ [ch, l.ch], l.readChar)
    else pure (newToken GTR [l.ch], l.readChar)
  else if l.ch = 59 then pure (newToken SEMICOLON [l.ch], l.readChar) -- ';'
  else if l.ch = 40 then pure (newToken LPAREN [l.ch], l.readChar) -- '('
  else if l.ch = 41 then pure (newToken RPAREN [l.ch], l.readChar) -- ')'
  else if l.ch = 44 then pure (newToken COMMA [l.ch], l.readChar) -- ','
  else if l.ch = 123 then pure (newToken LBRACE [l.ch], l.readChar) -- left brace
  else if l.ch = 125 then pure (newToken RBRACE [l.ch], l.readChar) -- right brace
  else if l.ch = 91 then pure (newToken LBRACK [l.ch], l.readChar) -- '['
  else if l.ch = 93 then pure (newToken RBRACK [l.ch], l.readChar) -- ']'
  else if l.ch = 34 then do -- '"'
    let (s, l) ← l.readString fuel
    pure ({ Kind := STRING, Literal := s, Name := none }, l.readChar)
  else if l.ch = 0 then
    pure ({ Kind := EOF, Literal := [], Name := none }, l.readChar)
  else if isLetter l.ch then do
    let (s, l) ← l.readIdentifier fuel
    pure ({ Kind := Lookup s, Literal := s, Name := none }, l)
  else if isDigit l.ch then do
    let (s, l) ← l.readNumber fuel
    pure ({ Kind := INT, Literal := s, Name := none }, l)
  else pure (newToken ILLEGAL [l.ch], l.readChar)

/-- A call of `NextToken` with fuel that no returning call can exhaust: every loop either
stops within `len(input) + 1` iterations or never stops. -/
def next (l : Lexer) : Except Fail (Lexeme × Lexer) :=
  l.NextToken (l.input.length + 2)

/-- The units returned by the first `n` calls of `NextToken`, in order. -/
def tokens : Nat → Lexer → Except Fail (List Lexeme)
  | 0, _ => pure []
  | n + 1, l => do
    let (tok, l) ← l.next
    let rest ← tokens n l
    pure (tok :: rest)

end Lexer

/-! ## Token classification used by the parser -/

namespace Token

/-- Modelled from the spec: `Type.IsOpertor` is declared outside the source files. The
spec separates operators from delimiters, literals and keywords (section 3); the operator
kinds are the comparison, additive, multiplicative and prefix operators and the
assignment operator `:=` (sections 4.1, 4.2, 4.3). -/
def IsOpertor : Token → Bool
  | ASSIGN | EQL | ADD | SUBT | NOT | NEQ | DIV | MULT | LEQ | LSS | GEQ | GTR | XOR | AND => true
  | _ => false

/-- Modelled from the spec: `Type.Precedence` is declared outside the source files.
Section 4.3 orders comparisons below additive below multiplicative operators; every other
kind has the lowest precedence. -/
def Precedence : Token → Nat
  | EQL | NEQ | LSS | LEQ | GTR | GEQ => 1
  | ADD | SUBT => 2
  | MULT | DIV => 3
  | _ => 0

end Token

/-- The zero value of a lexical unit. -/
def Lexeme.zero : Lexeme := { Kind := ILLEGAL, Literal := [], Name := none }

/-! ## Syntax tree -/

/-- Modelled from the spec: `Identifier` is declared outside the source files
(section 3): the unit of a name and its text. -/
structure Identifier where
  Token : Lexeme
  Value : List Nat
deriving DecidableEq, Repr

mutual
/-- Modelled from the spec: the node types are declared outside the source files
(section 3). `unary` is `UnaryExpression`, `paren` is `ParenExpression`, `binary` wraps a
`BinaryExpression` value stored in an `Expression` interface. -/
inductive Expression where
  | unary (Operator Operand : Lexeme)
  | paren (Lparen : Lexeme) (Expr : Expression) (Rparen : Lexeme)
  | binary (b : BinaryExpression)
/-- Modelled from the spec: `BinaryExpression` has an operator (absent in the zero
value), an ordered sequence of subnodes and an optional `left` binary node. -/
inductive BinaryExpression where
  | mk (Operator : Lexeme) (Left : Option BinaryExpression) (Subnodes : List Expression)
end

namespace BinaryExpression

def Operator : BinaryExpression → Lexeme
  | mk op _ _ => op

def Left : BinaryExpression → Option BinaryExpression
  | mk _ left _ => left

def Subnodes : BinaryExpression → List Expression
  | mk _ _ subnodes => subnodes

/-- The zero value `BinaryExpression{}`. -/
def zero : BinaryExpression := mk Lexeme.zero none []

/-- The assignment `expression.Operator = tok`. -/
def setOperator (b : BinaryExpression) (tok : Lexeme) : BinaryExpression :=
  mk tok b.Left b.Subnodes

/-- Modelled from the spec: `addSubnode` is declared outside the source files; it appends
one operand to the ordered sequence of subnodes. -/
def addSubnode (b : BinaryExpression) (e : Expression) : BinaryExpression :=
  mk b.Operator b.Left (b.Subnodes ++ [e])

/-- Modelled from the spec: `emptyNode` is declared outside the source files; a node is
empty when it has no operator and no operands yet (sections 3 and 4.3; a freshly shifted
node is empty). -/
def emptyNode (b : BinaryExpression) : Bool :=
  !b.Operator.Kind.IsOpertor && b.Subnodes.isEmpty

/-- Modelled from the spec: `completeNode` is declared outside the source files; a node
is complete when its operator is set and it has exactly two operands, left and right. The
left operand of a shifted node is the triple in its `left` slot. -/
def completeNode (b : BinaryExpression) : Bool :=
  b.Operator.Kind.IsOpertor &&
    (b.Subnodes.length + (if b.Left.isSome then 1 else 0) == 2)

/-- Modelled from the spec: `shiftNode` is declared outside the source files; it demotes
the node into the `left` slot of a new node that has no operator and no subnodes. -/
def shiftNode (b : BinaryExpression) : BinaryExpression :=
  mk Lexeme.zero (some b) []

end BinaryExpression

/-- Modelled from the spec: `LetStatement` is declared outside the source files
(section 3). `Name` is a pointer that stays nil until an identifier is bound. -/
structure LetStatement where
  Token : Lexeme
  Name : Option Identifier
  Expr : Expression

/-- Modelled from the spec: the `Statement` interface is declared outside the source
files; these are the two statement forms the parser builds. -/
inductive Statement where
  | letStmt (s : LetStatement)
  | exprStmt (Token : Lexeme) (Expr : Expression)

/-- Modelled from the spec: `Program` is declared outside the source files; the
statements in source order. -/
structure Program where
  Statements : List Statement

/-- Modelled from the spec: `Scope` is declared outside the source files. The table
`Objects` of type `map[string]*LetStatement` is an association list with at most one
entry per key. -/
structure Scope where
  Objects : List (List Nat × LetStatement)

namespace Scope

/-- The map assignment `Objects[key] = stmt`. -/
def set (s : Scope) (key : List Nat) (stmt : LetStatement) : Scope :=
  { Objects := (key, stmt) :: s.Objects.filter (fun e => decide (e.1 ≠ key)) }

/-- The map read `Objects[key]`. -/
def get (s : Scope) (key : List Nat) : Option LetStatement :=
  (s.Objects.find? (fun e => decide (e.1 = key))).map Prod.snd

end Scope

/-! ## Parser

The parser pulls units from its tokenizer through `NextToken` only, so it is embedded
over an arbitrary token source `next : σ → Except Fail (Lexeme × σ)`. `Lexer.next` is the
source for the tokenizer above, `streamNext` the one for an explicit list of units.
The diagnostic prints of `parseStatement` are left out. -/

structure Parser (σ : Type) where
  l : σ
  errors : List String
  topScope : Scope
  curToken : Lexeme
  peekToken : Lexeme

/-- A token source that replays a list of units and then returns end-of-input forever. -/
def streamNext : List Lexeme → Except Fail (Lexeme × List Lexeme)
  | [] => .ok ({ Kind := EOF, Literal := [], Name := none }, [])
  | tok :: rest => .ok (tok, rest)

namespace Parser

section
variable {σ : Type} (next : σ → Except Fail (Lexeme × σ))

def nextToken (p : Parser σ) : Except Fail (Parser σ) := do
  let (tok, l) ← next p.l
  pure { p with curToken := p.peekToken, peekToken := tok, l := l }

/-- The Go function `parser.New`. -/
def New (l : σ) : Except Fail (Parser σ) := do
  let p : Parser σ :=
    { l := l, errors := [], topScope := { Objects := [] },
      curToken := Lexeme.zero, peekToken := Lexeme.zero }
  let p ← nextToken next p
  nextToken next p

def peekPrecedence (p : Parser σ) : Nat := p.peekToken.Kind.Precedence

def tokenIs (p : Parser σ) (t : Token) : Bool := p.curToken.Kind == t

def peekTokenIs (p : Parser σ) (t : Token) : Bool := p.peekToken.Kind == t

def parseUnaryExpr (p : Parser σ) : Except Fail (Expression × Parser σ) := do
  let operator := newToken ADD [43]
  let (operator, p) ←
    if p.curToken.Kind = ADD ∨ p.curToken.Kind = SUBT ∨ p.curToken.Kind = NOT
        ∨ p.curToken.Kind = XOR ∨ p.curToken.Kind = AND then do
      let operator := p.curToken
      let p ← nextToken next p
      pure (operator, p)
    else pure (operator, p)
  pure (Expression.unary operator p.curToken, p)

/-- The first loop of `parseParenExpr`: `for p.tokenIs(LPAREN)`. -/
def parenOpenLoop : Nat → Int → Lexeme → Parser σ → Except Fail (Int × Lexeme × Parser σ)
  | 0, _, _, _ => .error .outOfFuel
  | fuel + 1, parenCounter, lparen, p =>
    if p.tokenIs LPAREN then do
      let parenCounter := parenCounter + 1
      let lparen := p.curToken
      let p ← nextToken next p
      parenOpenLoop fuel parenCounter lparen p
    else pure (parenCounter, lparen, p)

/-- The second loop of `parseParenExpr`: `for p.peekTokenIs(RPAREN)`. -/
def parenCloseLoop : Nat → Int → Parser σ → Except Fail (Int × Parser σ)
  | 0, _, _ => .error .outOfFuel
  | fuel + 1, parenCounter, p =>
    if p.peekTokenIs RPAREN then do
      let parenCounter := parenCounter - 1
      let p ← nextToken next p
      parenCloseLoop fuel parenCounter p
    else pure (parenCounter, p)

mutual
/-- The Go method `parseParenExpr`. Besides the expression it returns the value the local
`parenCounter` has at the return statement. -/
def parseParenExpr : Nat → Parser σ → Except Fail (Expression × Int × Parser σ)
  | 0, _ => .error .outOfFuel
  | fuel + 1, p => do
    let (parenCounter, lparen, p) ← parenOpenLoop next fuel 0 Lexeme.zero p
    let (expr, p) ← parseExpression fuel Token.RPAREN p
    let (parenCounter, p) ← parenCloseLoop next fuel parenCounter p
    let rparen := p.curToken
    let parenCounter := parenCounter - 1
    if parenCounter > 0 then .error (.panic "Paren mismatch")
    else pure (Expression.paren lparen expr rparen, parenCounter, p)
/-- The loop of `parseBinaryExpr`, one iteration per unit of fuel, with the node under
construction as an argument. -/
def parseBinaryLoop : Nat → Token → Bool → Nat → BinaryExpression → Parser σ →
    Except Fail (BinaryExpression × Parser σ)
  | 0, _, _, _, _, _ => .error .outOfFuel
  | fuel + 1, endToken, rhs, prec, expression, p =>
    if p.tokenIs endToken then pure (expression, p)
    else if expression.completeNode && rhs then pure (expression, p)
    else do
      let expression :=
        if expression.completeNode && !p.tokenIs endToken then expression.shiftNode
        else expression
      let (expression, p) ←
        if p.tokenIs LPAREN then do
          let (expr, _, p) ← parseParenExpr fuel p
          pure (expression.addSubnode expr, p)
        else if p.curToken.Kind.IsOpertor && !expression.Operator.Kind.IsOpertor then
          pure (expression.setOperator p.curToken, p)
        else if expression.emptyNode then do
          let (expr, p) ← parseUnaryExpr next p
          pure (expression.addSubnode expr, p)
        else if rhs && expression.Operator.Kind.IsOpertor && p.peekPrecedence > prec then do
          let (expr, p) ← parseUnaryExpr next p
          pure ((expression.addSubnode expr).shiftNode, p)
        else if expression.Operator.Kind.IsOpertor
            && p.peekPrecedence > expression.Operator.Kind.Precedence then do
          let (expr, p) ← parseBinaryExpr fuel endToken true expression.Operator.Kind.Precedence p
          pure (expression.addSubnode (Expression.binary expr), p)
        else do
          let (expr, p) ← parseUnaryExpr next p
          pure (expression.addSubnode expr, p)
      let p ←
        if !p.peekTokenIs EOF && !(rhs && expression.completeNode) then nextToken next p
        else pure p
      parseBinaryLoop fuel endToken rhs prec expression p
/-- The Go method `parseBinaryExpr`. -/
def parseBinaryExpr : Nat → Token → Bool → Nat → Parser σ →
    Except Fail (BinaryExpression × Parser σ)
  | 0, _, _, _, _ => .error .outOfFuel
  | fuel + 1, endToken, rhs, prec, p =>
    parseBinaryLoop fuel endToken rhs prec BinaryExpression.zero p
/-- The Go method `parseExpression`. -/
def parseExpression : Nat → Token → Parser σ → Except Fail (Expression × Parser σ)
  | 0, _, _ => .error .outOfFuel
  | fuel + 1, endToken, p =>
    if p.tokenIs LPAREN || p.peekToken.Kind.IsOpertor then do
      let (expr, p) ← parseBinaryExpr fuel endToken false 0 p
      pure (Expression.binary expr, p)
    else parseUnaryExpr next p
end

def parseLetStatement (fuel : Nat) (p : Parser σ) : Except Fail (LetStatement × Parser σ) := do
  let token := p.curToken
  let (name, p) ←
    if p.peekTokenIs IDENT then do
      let p ← nextToken next p
      pure (some { Token := p.curToken, Value := p.curToken.Literal : Identifier }, p)
    else pure (none, p)
  if !p.peekTokenIs ASSIGN then .error (.panic "Invalid Let assignment")
  else do
    let p ← nextToken next p
    let p ← nextToken next p
    let (expr, p) ← parseExpression next fuel Token.SEMICOLON p
    pure ({ Token := token, Name := name, Expr := expr }, p)

/-- The Go method `parseStatement`; `none` is the nil statement. Reading `stmt.Name.Value`
through a nil `Name` is a runtime panic. -/
def parseStatement (fuel : Nat) (p : Parser σ) : Except Fail (Option Statement × Parser σ) :=
  match p.curToken.Kind with
  | CONST => pure (none, p)
  | LET => do
    let (stmt, p) ← parseLetStatement next fuel p
    match stmt.Name with
    | none => .error (.panic "invalid memory address or nil pointer dereference")
    | some name =>
      pure (some (Statement.letStmt stmt), { p with topScope := p.topScope.set name.Value stmt })
  | RETURN => pure (none, p)
  | LPAREN | INT => do
    let start := p.curToken
    let (expression, p) ← parseExpression next fuel Token.SEMICOLON p
    pure (some (Statement.exprStmt start expression), p)
  | _ => pure (none, p)

/-- The loop of `ParseProgram`, one iteration per unit of fuel. -/
def ParseProgramLoop : Nat → Program → Parser σ → Except Fail (Program × Parser σ)
  | 0, _, _ => .error .outOfFuel
  | fuel + 1, program, p =>
    if p.curToken.Kind ≠ EOF then do
      let (stmt, p) ← parseStatement next fuel p
      let program :=
        match stmt with
        | some s => { Statements := program.Statements ++ [s] : Program }
        | none => program
      let p ← nextToken next p
      ParseProgramLoop fuel program p
    else pure (program, p)

/-- The Go method `ParseProgram`. -/
def ParseProgram (fuel : Nat) (p : Parser σ) : Except Fail (Program × Parser σ) :=
  ParseProgramLoop next fuel { Statements := [] } p

end

end Parser

/-- Tokenize and parse a source text: `parser.New(lex.New(input)).ParseProgram()`. -/
def parseSource (fuel : Nat) (input : List Nat) : Except Fail Program := do
  let p ← Parser.New Lexer.next (New input)
  let (program, _) ← Parser.ParseProgram Lexer.next fuel p
  pure program

/-! ## Definitions used to state and prove the properties -/

/-- The end-of-input unit. -/
def eofUnit : Lexeme := { Kind := EOF, Literal := [], Name := none }

namespace Lexer

/-- The unit returned by call number `n` (counting from zero) in a sequence of
`NextToken` calls that starts in state `l`. -/
def unitAt : Nat → Lexer → Except Fail Lexeme
  | 0, l => do
    let (tok, _) ← l.next
    pure tok
  | n + 1, l => do
    let (_, l) ← l.next
    unitAt n l

/-- Source text rebuilt from successive `NextToken` calls up to the end-of-input unit:
in front of the text `render tok` of every unit goes the whitespace that the call skipped
before it. `n` bounds the number of calls. -/
def reconstruct (render : Lexeme → List Nat) : Nat → Lexer → Except Fail (List Nat)
  | 0, _ => .error .outOfFuel
  | n + 1, l => do
    let skipped ← l.skipWhitespace (l.input.length + 2)
    let ws ← goSlice l.input l.position skipped.position
    let (tok, l) ← l.next
    if tok.Kind = EOF then pure ws
    else do
      let rest ← reconstruct render n l
      pure (ws ++ render tok ++ rest)

end Lexer

/-- The text a unit was read from: its literal, between double quotes for a string. -/
def Lexeme.source (tok : Lexeme) : List Nat :=
  if tok.Kind = STRING then 34 :: tok.Literal ++ [34] else tok.Literal

/-- The operator and delimiter bytes `: = + - ! / * < > ; ( ) , { } [ ]`. -/
def isOperatorChar (ch : Nat) : Bool :=
  ch == 58 || ch == 61 || ch == 43 || ch == 45 || ch == 33 || ch == 47 || ch == 42
    || ch == 60 || ch == 62 || ch == 59 || ch == 40 || ch == 41 || ch == 44
    || ch == 123 || ch == 125 || ch == 91 || ch == 93

/-- The bytes the tokenizer recognizes: whitespace, operator and delimiter bytes, the
double quote, ASCII letters and underscore, ASCII digits. -/
def recognized (ch : Nat) : Bool :=
  isWhitespace ch || isOperatorChar ch || ch == 34 || isLetter ch || isDigit ch

/-- The byte at position `p`, or the sentinel `0` past the end of the input. -/
def byteAt (input : List Nat) (p : Nat) : Nat := input.getD p 0

/-- The tokenizer state whose cursor is on position `p` of `input`. -/
def atPos (input : List Nat) (p : Nat) : Lexer :=
  { input := input, position := p, readPosition := p + 1, ch := byteAt input p }

/-- Length of the longest run of bytes satisfying `cond` that starts at position `p`. -/
def runLength (cond : Nat → Bool) (input : List Nat) (p : Nat) : Nat :=
  ((input.drop p).takeWhile cond).length

/-- Kind of the one-byte unit that starts with `c`. -/
def charKind (c : Nat) : Token :=
  if c = 58 then COLON else if c = 61 then EQL else if c = 43 then ADD
  else if c = 45 then SUBT else if c = 33 then NOT else if c = 47 then DIV
  else if c = 42 then MULT else if c = 60 then LSS else if c = 62 then GTR
  else if c = 59 then SEMICOLON else if c = 40 then LPAREN else if c = 41 then RPAREN
  else if c = 44 then COMMA else if c = 123 then LBRACE else if c = 125 then RBRACE
  else if c = 91 then LBRACK else if c = 93 then RBRACK else ILLEGAL

/-- Kind of the two-byte unit made of `c` and `=`, for the four bytes that can start one. -/
def pairKind (c : Nat) : Option Token :=
  if c = 58 then some ASSIGN else if c = 33 then some NEQ
  else if c = 60 then some LEQ else if c = 62 then some GEQ else none

/-- Position-level description of `NextToken` after its whitespace loop, the cursor being
on position `p`: the unit and the position of the cursor afterwards. -/
def scanFrom (input : List Nat) (p : Nat) : Except Fail (Lexeme × Nat) :=
  let c := byteAt input p
  if c = 0 then .ok (eofUnit, p + 1)
  else if c = 34 then
    if 34 ∈ input.drop (p + 1) then
      let n := runLength (fun b => b != 34) input (p + 1)
      .ok ({ Kind := STRING, Literal := (input.drop (p + 1)).take n, Name := none }, p + n + 2)
    else .error .outOfFuel
  else if isLetter c then
    let n := runLength isLetter input p
    .ok ({ Kind := Lookup ((input.drop p).take n), Literal := (input.drop p).take n, Name := none },
      p + n)
  else if isDigit c then
    let n := runLength isDigit input p
    .ok ({ Kind := INT, Literal := (input.drop p).take n, Name := none }, p + n)
  else if (pairKind c).isSome ∧ byteAt input (p + 1) = 61 then
    .ok (newToken ((pairKind c).getD ILLEGAL) [c, 61], p + 2)
  else .ok (newToken (charKind c) [c], p + 1)

/-- Position-level description of one `NextToken` call from a cursor on position `p`. -/
def scanAt (input : List Nat) (p : Nat) : Except Fail (Lexeme × Nat) :=
  scanFrom input (p + runLength isWhitespace input p)

/-- The default operator of a unary term: `token.NewToken(token.ADD, '+')`. -/
def plusUnit : Lexeme := newToken ADD [43]

/-- The parser as `parser.New` leaves it on a stream that starts with the units `ts`,
with scope table `scope`. -/
def onStream (scope : Scope) : List Lexeme → Parser (List Lexeme)
  | [] => { l := [], errors := [], topScope := scope, curToken := eofUnit, peekToken := eofUnit }
  | [a] => { l := [], errors := [], topScope := scope, curToken := a, peekToken := eofUnit }
  | a :: b :: l => { l := l, errors := [], topScope := scope, curToken := a, peekToken := b }

/-- Kinds of the single-unit operands: integer and string literals and identifiers. -/
def Token.isOperand : Token → Bool
  | INT | IDENT | STRING => true
  | _ => false

/-- The statement `let name := operand`. -/
def simpleLet (letTok name operand : Lexeme) : LetStatement :=
  { Token := letTok
    Name := some { Token := name, Value := name.Literal }
    Expr := Expression.unary plusUnit operand }

namespace BinaryExpression

/-- The operators met from a node along its `left` links. -/
def operators : BinaryExpression → List Lexeme
  | mk op none _ => [op]
  | mk op (some left) _ => op :: operators left

/-- The node the `left` links end in. -/
def leftmost : BinaryExpression → BinaryExpression
  | mk op none subnodes => mk op none subnodes
  | mk _ (some left) _ => leftmost left

end BinaryExpression

/-- The left-associative tree that continues `first` with the operator and operand pairs
`ops`: each pair makes a new node above the tree built so far. -/
def leftChain (first : BinaryExpression) : List (Lexeme × Lexeme) → BinaryExpression
  | [] => first
  | (op, operand) :: ops =>
    leftChain (BinaryExpression.mk op (some first) [Expression.unary plusUnit operand]) ops

/-- The units of a list of operator and operand pairs, in source order. -/
def chainTokens : List (Lexeme × Lexeme) → List Lexeme
  | [] => []
  | (op, operand) :: ops => op :: operand :: chainTokens ops

/-- The outcome of `parseParenExpr` called on a fresh parser over `input`: the expression
and the value of `parenCounter` at the return statement. -/
def parseParenSource (fuel : Nat) (input : List Nat) : Except Fail (Expression × Int) := do
  let p ← Parser.New Lexer.next (New input)
  let (expr, parenCounter, _) ← Parser.parseParenExpr Lexer.next fuel p
  pure (expr, parenCounter)

namespace Lexer

/-- The tokenizer state after `n` calls of `NextToken` that all returned. -/
def after : Nat → Lexer → Except Fail Lexer
  | 0, l => pure l
  | n + 1, l => do
    let (_, l) ← l.next
    after n l

end Lexer

/-- The kinds `parseUnaryExpr` accepts as the leading operator of a unary term. -/
def Token.leadsUnary : Token → Bool
  | ADD | SUBT | NOT | XOR | AND => true
  | _ => false

/-- Parse a stream of units: `parser.New` on a token source that replays `ts`, then
`ParseProgram`. -/
def parseUnits (fuel : Nat) (ts : List Lexeme) : Except Fail Program := do
  let p ← Parser.New streamNext ts
  let (program, _) ← Parser.ParseProgram streamNext fuel p
  pure program

/-! ## Lemmas about the tokenizer -/

theorem byteAt_of_length_le (input : List Nat) (p : Nat) (h : input.length ≤ p) :
    byteAt input p = 0 := by
  simp [byteAt, List.getD_eq_getElem?_getD, List.getElem?_eq_none h]

theorem lt_length_of_byteAt_ne_zero (input : List Nat) (p : Nat) (h : byteAt input p ≠ 0) :
    p < input.length := by
  by_contra hlt
  exact h (byteAt_of_length_le input p (by omega))

theorem drop_eq_byteAt_cons (input : List Nat) (p : Nat) (h : p < input.length) :
    input.drop p = byteAt input p :: input.drop (p + 1) := by
  rw [List.drop_eq_getElem_cons h]
  simp [byteAt, List.getD_eq_getElem?_getD, List.getElem?_eq_getElem h]

theorem readChar_atPos (input : List Nat) (p : Nat) :
    (atPos input p).readChar = atPos input (p + 1) := by
  simp only [Lexer.readChar, atPos]
  by_cases h : p + 1 ≥ input.length
  · rw [if_pos h, byteAt_of_length_le input (p + 1) h]
  · rw [if_neg h]; rfl

theorem New_eq_atPos (input : List Nat) : New input = atPos input 0 := by
  simp only [New, Lexer.readChar, atPos]
  by_cases h : 0 ≥ input.length
  · rw [if_pos h, byteAt_of_length_le input 0 h]
  · rw [if_neg h]; rfl

theorem peekChar_atPos (input : List Nat) (p : Nat) :
    (atPos input p).peekChar = byteAt input (p + 1) := by
  simp only [Lexer.peekChar, atPos]
  by_cases h : p + 1 ≥ input.length
  · rw [if_pos h, byteAt_of_length_le input (p + 1) h]
  · rw [if_neg h]; rfl

theorem runLength_of_not (cond : Nat → Bool) (input : List Nat) (p : Nat)
    (h : cond (byteAt input p) = false) : runLength cond input p = 0 := by
  unfold runLength
  by_cases hp : p < input.length
  · rw [drop_eq_byteAt_cons input p hp, List.takeWhile_cons, h]
    rfl
  · simp [List.drop_eq_nil_of_le (Nat.le_of_not_lt hp)]

theorem runLength_succ (cond : Nat → Bool) (input : List Nat) (p : Nat)
    (hp : p < input.length) (h : cond (byteAt input p) = true) :
    runLength cond input p = runLength cond input (p + 1) + 1 := by
  unfold runLength
  rw [drop_eq_byteAt_cons input p hp, List.takeWhile_cons, h]
  rfl

theorem runLength_of_pos (cond : Nat → Bool) (h0 : cond 0 = false) (input : List Nat) (p : Nat)
    (h : cond (byteAt input p) = true) :
    p < input.length ∧ runLength cond input p = runLength cond input (p + 1) + 1 := by
  have hp : p < input.length := by
    apply lt_length_of_byteAt_ne_zero
    intro hz
    rw [hz, h0] at h
    exact Bool.false_ne_true h
  exact ⟨hp, runLength_succ cond input p hp h⟩

theorem readWhile_atPos (cond : Nat → Bool) (h0 : cond 0 = false) (input : List Nat) :
    ∀ (fuel p : Nat), runLength cond input p < fuel →
      Lexer.readWhile cond fuel (atPos input p) = .ok (atPos input (p + runLength cond input p)) := by
  intro fuel
  induction fuel with
  | zero => intro p h; omega
  | succ fuel ih =>
    intro p h
    rw [Lexer.readWhile]
    by_cases hc : cond (byteAt input p) = true
    · obtain ⟨_, hrun⟩ := runLength_of_pos cond h0 input p hc
      have hch : cond (atPos input p).ch = true := hc
      rw [if_pos hch, readChar_atPos, ih (p + 1) (by omega), hrun]
      congr 2
      omega
    · have hc' : cond (byteAt input p) = false := by simpa using hc
      have hch : ¬ cond (atPos input p).ch = true := hc
      rw [if_neg hch, runLength_of_not cond input p hc']
      rfl

theorem runLength_le (cond : Nat → Bool) (input : List Nat) (p : Nat) :
    runLength cond input p ≤ input.length - p := by
  unfold runLength
  have h := (List.takeWhile_sublist cond (l := input.drop p)).length_le
  simpa using h

theorem byteAt_after_run (cond : Nat → Bool) (input : List Nat) :
    ∀ (n p : Nat), input.length - p ≤ n → cond (byteAt input (p + runLength cond input p)) = true → cond 0 = true := by
  intro n
  induction n with
  | zero =>
    intro p hn h
    rwa [byteAt_of_length_le input _ (by omega)] at h
  | succ n ih =>
    intro p hn h
    by_cases hc : cond (byteAt input p) = true
    · by_cases h0 : cond 0 = true
      · exact h0
      · obtain ⟨hp, hrun⟩ := runLength_of_pos cond (by simpa using h0) input p hc
        apply ih (p + 1) (by omega)
        rw [hrun] at h
        rwa [show p + 1 + runLength cond input (p + 1) = p + (runLength cond input (p + 1) + 1) by omega]
    · rw [runLength_of_not cond input p (by simpa using hc)] at h
      exact absurd h hc

theorem goSlice_atPos (input : List Nat) (p n : Nat) (h : p + n ≤ input.length) :
    goSlice input p (p + n) = .ok ((input.drop p).take n) := by
  unfold goSlice
  rw [if_pos ⟨by omega, h⟩]
  simp

theorem readStringLoop_diverges (input : List Nat) :
    ∀ (fuel p : Nat), 34 ∉ input.drop (p + 1) →
      Lexer.readStringLoop fuel (atPos input p) = .error .outOfFuel := by
  intro fuel
  induction fuel with
  | zero => intro p _; rfl
  | succ fuel ih =>
    intro p h
    rw [Lexer.readStringLoop]
    simp only [readChar_atPos]
    have hne : (atPos input (p + 1)).ch ≠ 34 := by
      show byteAt input (p + 1) ≠ 34
      intro hb
      have hp : p + 1 < input.length :=
        lt_length_of_byteAt_ne_zero input _ (by rw [hb]; decide)
      rw [drop_eq_byteAt_cons input _ hp, hb] at h
      simp at h
    rw [if_neg hne]
    apply ih
    intro hmem
    have hsub := List.drop_sublist 1 (input.drop (p + 1))
    exact h (hsub.subset (by simpa [List.drop_drop, Nat.add_comm] using hmem))

theorem readStringLoop_atPos (input : List Nat) :
    ∀ (fuel p : Nat), 34 ∈ input.drop (p + 1) →
      runLength (fun b => b != 34) input (p + 1) < fuel →
      Lexer.readStringLoop fuel (atPos input p) =
        .ok (atPos input (p + 1 + runLength (fun b => b != 34) input (p + 1))) := by
  intro fuel
  induction fuel with
  | zero => intro p _ h; omega
  | succ fuel ih =>
    intro p hmem h
    rw [Lexer.readStringLoop]
    simp only [readChar_atPos]
    by_cases hq : byteAt input (p + 1) = 34
    · have hch : (atPos input (p + 1)).ch = 34 := hq
      rw [if_pos hch, runLength_of_not _ input (p + 1) (by simp [hq])]
    · have hch : ¬ (atPos input (p + 1)).ch = 34 := hq
      have hp : p + 1 < input.length := by
        by_contra hlt
        rw [List.drop_eq_nil_of_le (by omega)] at hmem
        simp at hmem
      rw [drop_eq_byteAt_cons input _ hp] at hmem
      have hmem' : 34 ∈ input.drop (p + 1 + 1) := by
        rcases List.mem_cons.mp hmem with h1 | h1
        · exact absurd h1.symm hq
        · exact h1
      have hrun := runLength_succ (fun b => b != 34) input (p + 1) hp (by simpa using hq)
      rw [if_neg hch, ih (p + 1) hmem' (by omega), hrun]
      congr 2
      omega

theorem ch_atPos (input : List Nat) (p : Nat) : (atPos input p).ch = byteAt input p := rfl
theorem input_atPos (input : List Nat) (p : Nat) : (atPos input p).input = input := rfl
theorem position_atPos (input : List Nat) (p : Nat) : (atPos input p).position = p := rfl

theorem readString_atPos (input : List Nat) (fuel p : Nat) (hf : input.length < fuel)
    (hp : p < input.length) (hmem : 34 ∈ input.drop (p + 1)) :
    Lexer.readString fuel (atPos input p) =
      .ok ((input.drop (p + 1)).take (runLength (fun b => b != 34) input (p + 1)),
        atPos input (p + 1 + runLength (fun b => b != 34) input (p + 1))) := by
  have hle := runLength_le (fun b => b != 34) input (p + 1)
  unfold Lexer.readString
  rw [readStringLoop_atPos input fuel p hmem (by omega)]
  simp only [bind, Except.bind, input_atPos, position_atPos]
  rw [goSlice_atPos input (p + 1) _ (by omega)]
  rfl

theorem readIdentifier_atPos (input : List Nat) (fuel p : Nat) (hf : input.length < fuel)
    (hp : p ≤ input.length) :
    Lexer.readIdentifier fuel (atPos input p) =
      .ok ((input.drop p).take (runLength isLetter input p),
        atPos input (p + runLength isLetter input p)) := by
  have hle := runLength_le isLetter input p
  unfold Lexer.readIdentifier
  rw [readWhile_atPos isLetter rfl input fuel p (by omega)]
  simp only [bind, Except.bind, input_atPos, position_atPos]
  rw [goSlice_atPos input p _ (by omega)]
  rfl

theorem readNumber_atPos (input : List Nat) (fuel p : Nat) (hf : input.length < fuel)
    (hp : p ≤ input.length) :
    Lexer.readNumber fuel (atPos input p) =
      .ok ((input.drop p).take (runLength isDigit input p),
        atPos input (p + runLength isDigit input p)) := by
  have hle := runLength_le isDigit input p
  unfold Lexer.readNumber
  rw [readWhile_atPos isDigit rfl input fuel p (by omega)]
  simp only [bind, Except.bind, input_atPos, position_atPos]
  rw [goSlice_atPos input p _ (by omega)]
  rfl

theorem skipWhitespace_atPos (input : List Nat) (fuel p : Nat) (hf : input.length < fuel) :
    Lexer.skipWhitespace fuel (atPos input p) =
      .ok (atPos input (p + runLength isWhitespace input p)) := by
  have hle := runLength_le isWhitespace input p
  unfold Lexer.skipWhitespace
  exact readWhile_atPos isWhitespace rfl input fuel p (by omega)

/-- With more fuel than the input is long, `NextToken` from a cursor on position `p` is
the position-level scan. -/
theorem NextToken_atPos (input : List Nat) (fuel p : Nat) (hf : input.length < fuel) :
    Lexer.NextToken fuel (atPos input p) =
      (scanAt input p).map (fun r => (r.1, atPos input r.2)) := by
  unfold Lexer.NextToken scanAt scanFrom
  rw [skipWhitespace_atPos input fuel p hf]
  simp only [bind, Except.bind, ch_atPos, peekChar_atPos, readChar_atPos]
  generalize p + runLength isWhitespace input p = p1
  by_cases h0 : byteAt input p1 = 0
  · simp [h0, eofUnit, Except.map, pure, Except.pure]
  have hp1 : p1 < input.length := lt_length_of_byteAt_ne_zero input p1 h0
  by_cases h34 : byteAt input p1 = 34
  · by_cases hmem : 34 ∈ input.drop (p1 + 1)
    · simp [h34, hmem, readString_atPos input fuel p1 hf hp1 hmem, Except.map, pure, Except.pure,
        readChar_atPos]
      congr 1
      omega
    · simp [h34, hmem, Lexer.readString, readStringLoop_diverges input fuel p1 hmem, Except.map,
        bind, Except.bind]
  by_cases hl : isLetter (byteAt input p1) = true
  · have hl' := hl
    simp only [isLetter, Bool.or_eq_true, Bool.and_eq_true, decide_eq_true_eq, beq_iff_eq] at hl'
    have e : ∀ k : Nat, k < 65 → ¬ byteAt input p1 = k := by intro k hk; omega
    have e1 : ¬ byteAt input p1 = 91 := by omega
    have e2 : ¬ byteAt input p1 = 93 := by omega
    have e3 : ¬ byteAt input p1 = 123 := by omega
    have e4 : ¬ byteAt input p1 = 125 := by omega
    simp [h0, h34, hl, e, e1, e2, e3, e4, readIdentifier_atPos input fuel p1 hf (by omega),
      Except.map, pure, Except.pure]
  by_cases hd : isDigit (byteAt input p1) = true
  · have hd' := hd
    simp only [isDigit, Bool.and_eq_true, decide_eq_true_eq] at hd'
    have e : ∀ k : Nat, k < 48 → ¬ byteAt input p1 = k := by intro k hk; omega
    have e' : ∀ k : Nat, 57 < k → ¬ byteAt input p1 = k := by intro k hk; omega
    simp [h0, h34, hl, hd, e, e', readNumber_atPos input fuel p1 hf (by omega),
      Except.map, pure, Except.pure]
  simp only [h0, h34, hl, hd, if_false]
  generalize byteAt input p1 = c
  generalize byteAt input (p1 + 1) = n
  by_cases hc : c = 58 ∨ c = 61 ∨ c = 43 ∨ c = 45 ∨ c = 33 ∨ c = 47 ∨ c = 42 ∨ c = 60 ∨ c = 62
      ∨ c = 59 ∨ c = 40 ∨ c = 41 ∨ c = 44 ∨ c = 123 ∨ c = 125 ∨ c = 91 ∨ c = 93
  · rcases hc with rfl | rfl | rfl | rfl | rfl | rfl | rfl | rfl | rfl | rfl | rfl | rfl | rfl
      | rfl | rfl | rfl | rfl <;>
    by_cases hn : n = 61 <;>
    simp [hn, pairKind, charKind, Except.map, pure, Except.pure]
  · simp only [not_or] at hc
    obtain ⟨h1, h2, h3, h4, h5, h6, h7, h8, h9, h10, h11, h12, h13, h14, h15, h16, h17⟩ := hc
    simp [h1, h2, h3, h4, h5, h6, h7, h8, h9, h10, h11, h12, h13, h14, h15, h16, h17,
      pairKind, charKind, Except.map, pure, Except.pure]

/-! ## Properties of the tokenizer -/

theorem next_atPos (input : List Nat) (p : Nat) :
    (atPos input p).next = (scanAt input p).map (fun r => (r.1, atPos input r.2)) := by
  unfold Lexer.next
  exact NextToken_atPos input _ p (by show input.length < input.length + 2; omega)

theorem Lookup_cases (s : List Nat) :
    Lookup s = LET ∨ Lookup s = CONST ∨ Lookup s = RETURN ∨ Lookup s = IDENT := by
  unfold Lookup
  by_cases h1 : s = ascii "let"
  · rw [if_pos h1]; exact Or.inl rfl
  rw [if_neg h1]
  by_cases h2 : s = ascii "const"
  · rw [if_pos h2]; exact Or.inr (Or.inl rfl)
  rw [if_neg h2]
  by_cases h3 : s = ascii "return"
  · rw [if_pos h3]; exact Or.inr (Or.inr (Or.inl rfl))
  rw [if_neg h3]
  exact Or.inr (Or.inr (Or.inr rfl))

theorem Lookup_ne_EOF (s : List Nat) : Lookup s ≠ EOF := by
  rcases Lookup_cases s with h | h | h | h <;> rw [h] <;> decide

theorem Lookup_ne_STRING (s : List Nat) : Lookup s ≠ STRING := by
  rcases Lookup_cases s with h | h | h | h <;> rw [h] <;> decide

theorem charKind_mem (c : Nat) :
    charKind c ∈ [COLON, EQL, ADD, SUBT, NOT, DIV, MULT, LSS, GTR, SEMICOLON, LPAREN, RPAREN,
      COMMA, LBRACE, RBRACE, LBRACK, RBRACK, ILLEGAL] := by
  by_cases hc : c = 58 ∨ c = 61 ∨ c = 43 ∨ c = 45 ∨ c = 33 ∨ c = 47 ∨ c = 42 ∨ c = 60 ∨ c = 62
      ∨ c = 59 ∨ c = 40 ∨ c = 41 ∨ c = 44 ∨ c = 123 ∨ c = 125 ∨ c = 91 ∨ c = 93
  · rcases hc with rfl | rfl | rfl | rfl | rfl | rfl | rfl | rfl | rfl | rfl | rfl | rfl | rfl
      | rfl | rfl | rfl | rfl <;> decide
  · simp only [not_or] at hc
    obtain ⟨h1, h2, h3, h4, h5, h6, h7, h8, h9, h10, h11, h12, h13, h14, h15, h16, h17⟩ := hc
    simp [charKind, h1, h2, h3, h4, h5, h6, h7, h8, h9, h10, h11, h12, h13, h14, h15, h16, h17]

theorem charKind_ne_EOF (c : Nat) : charKind c ≠ EOF := by
  intro h
  have hm := charKind_mem c
  rw [h] at hm
  revert hm
  decide

theorem charKind_ne_STRING (c : Nat) : charKind c ≠ STRING := by
  intro h
  have hm := charKind_mem c
  rw [h] at hm
  revert hm
  decide

theorem pairKind_mem (c : Nat) : (pairKind c).getD ILLEGAL ∈ [ASSIGN, NEQ, LEQ, GEQ, ILLEGAL] := by
  by_cases hc : c = 58 ∨ c = 33 ∨ c = 60 ∨ c = 62
  · rcases hc with rfl | rfl | rfl | rfl <;> decide
  · simp only [not_or] at hc
    obtain ⟨h1, h2, h3, h4⟩ := hc
    simp [pairKind, h1, h2, h3, h4]

theorem pairKind_ne_EOF (c : Nat) : (pairKind c).getD ILLEGAL ≠ EOF := by
  intro h
  have hm := pairKind_mem c
  rw [h] at hm
  revert hm
  decide

theorem pairKind_ne_STRING (c : Nat) : (pairKind c).getD ILLEGAL ≠ STRING := by
  intro h
  have hm := pairKind_mem c
  rw [h] at hm
  revert hm
  decide

/-- A scan that returns a unit of kind `EOF` found the sentinel byte under the cursor. -/
theorem scanFrom_eof (input : List Nat) (p q : Nat) (tok : Lexeme)
    (h : scanFrom input p = .ok (tok, q)) (hk : tok.Kind = EOF) :
    byteAt input p = 0 ∧ tok = eofUnit ∧ q = p + 1 := by
  unfold scanFrom at h
  simp only at h
  split_ifs at h with h0 h34 hmem hl hd hpair
  all_goals simp only [Except.ok.injEq, Prod.mk.injEq, reduceCtorEq] at h
  · exact ⟨h0, h.1.symm, h.2.symm⟩
  · obtain ⟨rfl, _⟩ := h; exact absurd hk (by simp)
  · obtain ⟨rfl, _⟩ := h; exact absurd hk (Lookup_ne_EOF _)
  · obtain ⟨rfl, _⟩ := h; exact absurd hk (by simp)
  · obtain ⟨rfl, _⟩ := h; exact absurd hk (pairKind_ne_EOF _)
  · obtain ⟨rfl, _⟩ := h; exact absurd hk (charKind_ne_EOF _)

theorem scanFrom_of_zero (input : List Nat) (p : Nat) (h : byteAt input p = 0) :
    scanFrom input p = .ok (eofUnit, p + 1) := by
  unfold scanFrom
  simp [h]

theorem length_le_of_byteAt_zero (input : List Nat) (h0 : 0 ∉ input) (p : Nat)
    (h : byteAt input p = 0) : input.length ≤ p := by
  by_contra hlt
  have hp : p < input.length := by omega
  have hmem : byteAt input p ∈ input := by
    have hd := drop_eq_byteAt_cons input p hp
    have : byteAt input p ∈ input.drop p := by rw [hd]; exact List.mem_cons_self _ _
    exact List.mem_of_mem_drop this
  rw [h] at hmem
  exact h0 hmem

theorem unitAt_past_end (input : List Nat) :
    ∀ (m p : Nat), input.length ≤ p → Lexer.unitAt m (atPos input p) = .ok eofUnit := by
  intro m
  induction m with
  | zero =>
    intro p hp
    have hb := byteAt_of_length_le input p hp
    have hr : runLength isWhitespace input p = 0 := runLength_of_not _ input p (by rw [hb]; rfl)
    simp [Lexer.unitAt, next_atPos, scanAt, hr, scanFrom_of_zero input p hb, Except.map, bind,
      Except.bind, pure, Except.pure]
  | succ m ih =>
    intro p hp
    have hb := byteAt_of_length_le input p hp
    have hr : runLength isWhitespace input p = 0 := runLength_of_not _ input p (by rw [hb]; rfl)
    simp [Lexer.unitAt, next_atPos, scanAt, hr, scanFrom_of_zero input p hb, Except.map, bind,
      Except.bind]
    exact ih (p + 1) (by omega)

theorem unitAt_eof_stable (input : List Nat) (h0 : 0 ∉ input) :
    ∀ (n m p : Nat), n ≤ m →
      (∃ tok, Lexer.unitAt n (atPos input p) = .ok tok ∧ tok.Kind = EOF) →
      Lexer.unitAt m (atPos input p) = .ok eofUnit := by
  intro n
  induction n with
  | zero =>
    intro m p _ ⟨tok, h, hk⟩
    simp only [Lexer.unitAt, next_atPos, scanAt, bind, Except.bind, Except.map] at h
    cases hs : scanFrom input (p + runLength isWhitespace input p) with
    | error e => rw [hs] at h; simp at h
    | ok r =>
      obtain ⟨t, q⟩ := r
      rw [hs] at h
      simp only [pure, Except.pure, Except.ok.injEq] at h
      subst h
      obtain ⟨hz, rfl, rfl⟩ := scanFrom_eof input _ q t hs hk
      have hlen := length_le_of_byteAt_zero input h0 _ hz
      cases m with
      | zero =>
        simp [Lexer.unitAt, next_atPos, scanAt, hs, Except.map, bind, Except.bind, pure,
          Except.pure]
      | succ m =>
        simp only [Lexer.unitAt, next_atPos, scanAt, hs, Except.map, bind, Except.bind]
        exact unitAt_past_end input m _ (by omega)
  | succ n ih =>
    intro m p hnm ⟨tok, h, hk⟩
    obtain ⟨m, rfl⟩ : ∃ m', m = m' + 1 := ⟨m - 1, by omega⟩
    simp only [Lexer.unitAt, next_atPos, scanAt, bind, Except.bind, Except.map] at h ⊢
    cases hs : scanFrom input (p + runLength isWhitespace input p) with
    | error e => rw [hs] at h; simp at h
    | ok r =>
      rw [hs] at h
      simp only at h ⊢
      exact ih m r.2 (by omega) ⟨tok, h, hk⟩

/-- C1: tokenizing `let x := 1 + 2 * 3;` yields, in order, LET, IDENT x, ASSIGN, INT 1, ADD,
INT 2, MULT, INT 3, SEMICOLON and the end-of-input unit. -/
theorem tokens_let_example :
    Lexer.tokens 10 (New (ascii "let x := 1 + 2 * 3;")) = .ok
      [⟨LET, ascii "let", none⟩, ⟨IDENT, ascii "x", none⟩, ⟨ASSIGN, ascii ":=", some ASSIGN⟩,
       ⟨INT, ascii "1", none⟩, ⟨ADD, ascii "+", some ADD⟩, ⟨INT, ascii "2", none⟩,
       ⟨MULT, ascii "*", some MULT⟩, ⟨INT, ascii "3", none⟩,
       ⟨SEMICOLON, ascii ";", some SEMICOLON⟩, ⟨EOF, [], none⟩] := by
  decide

/-- C9 at the failing input: on an input that opens a string literal and never closes it,
no amount of fuel makes `NextToken` return a unit. -/
theorem NextToken_unterminated_string_never_returns :
    ∀ fuel : Nat, Lexer.NextToken fuel (New (ascii "\"abc")) = .error .outOfFuel := by
  intro fuel
  cases fuel with
  | zero => rfl
  | succ fuel =>
    have hd := readStringLoop_diverges (ascii "\"abc") (fuel + 1) 0 (by decide)
    have hs : Lexer.skipWhitespace (fuel + 1) (atPos (ascii "\"abc") 0)
        = .ok (atPos (ascii "\"abc") 0) := rfl
    have hch : (atPos (ascii "\"abc") 0).ch = 34 := by decide
    rw [New_eq_atPos]
    unfold Lexer.NextToken
    rw [hs]
    simp [hch, Lexer.readString, hd, bind, Except.bind]

/-- C10 as stated fails: on the two-byte input NUL, `a` the first call returns the
end-of-input unit and the second call returns the identifier `a`. -/
theorem eof_not_idempotent_after_nul :
    ¬ ∀ (input : List Nat) (n m : Nat), n ≤ m →
      Lexer.unitAt n (New input) = .ok eofUnit → Lexer.unitAt m (New input) = .ok eofUnit := by
  intro h
  exact absurd (h [0, 97] 0 1 (by decide) (by decide)) (by decide)

/-- C10 amended: on an input without NUL byte, once some call of `NextToken` has returned
a unit of kind EOF, every later call returns the end-of-input unit (kind EOF, empty
literal). -/
theorem eof_idempotent_without_nul (input : List Nat) (h0 : 0 ∉ input) (n m : Nat)
    (hnm : n ≤ m) (tok : Lexeme) (h : Lexer.unitAt n (New input) = .ok tok)
    (hk : tok.Kind = EOF) : Lexer.unitAt m (New input) = .ok eofUnit := by
  rw [New_eq_atPos] at h ⊢
  exact unitAt_eof_stable input h0 n m 0 hnm ⟨tok, h, hk⟩

theorem eof_idempotent_without_nul_witness :
    0 ∉ ascii "a b" ∧ Lexer.unitAt 2 (New (ascii "a b")) = .ok eofUnit ∧
      Lexer.unitAt 5 (New (ascii "a b")) = .ok eofUnit :=
  ⟨by decide, by decide,
    eof_idempotent_without_nul (ascii "a b") (by decide) 2 5 (by decide) eofUnit (by decide)
      (by decide)⟩
theorem take_length_takeWhile (c : Nat → Bool) (r : List Nat) :
    r.take (r.takeWhile c).length = r.takeWhile c := by
  induction r with
  | nil => rfl
  | cons x r ih =>
    rw [List.takeWhile_cons]
    cases hx : c x with
    | true => simp [ih]
    | false => simp

theorem drop_length_takeWhile (c : Nat → Bool) (r : List Nat) :
    r.drop (r.takeWhile c).length = r.dropWhile c := by
  induction r with
  | nil => rfl
  | cons x r ih =>
    rw [List.takeWhile_cons, List.dropWhile_cons]
    cases hx : c x with
    | true => simp [ih]
    | false => simp

theorem take_runLength (cond : Nat → Bool) (input : List Nat) (p : Nat) :
    (input.drop p).take (runLength cond input p) = (input.drop p).takeWhile cond :=
  take_length_takeWhile cond (input.drop p)

theorem drop_runLength (cond : Nat → Bool) (input : List Nat) (p : Nat) :
    input.drop (p + runLength cond input p) = (input.drop p).dropWhile cond := by
  rw [← List.drop_drop]
  exact drop_length_takeWhile cond (input.drop p)

theorem count_takeWhile_zero (cond : Nat → Bool) (r : List Nat) (h : cond 34 = false) :
    (r.takeWhile cond).count 34 = 0 := by
  apply List.count_eq_zero_of_not_mem
  intro hmem
  have := List.mem_takeWhile_imp hmem
  rw [h] at this
  exact Bool.false_ne_true this

theorem newToken_single (k : Token) (c : Nat) (hc : c < 128) :
    newToken k [c] = { Kind := k, Literal := [c], Name := some k } := by
  simp [newToken, runeBytes, hc]

theorem newToken_pair (k : Token) (c : Nat) (hc : c < 128) :
    newToken k [c, 61] = { Kind := k, Literal := [c, 61], Name := some k } := by
  simp [newToken, runeBytes, hc]

theorem source_of_ne_STRING (tok : Lexeme) (h : tok.Kind ≠ STRING) : tok.source = tok.Literal := by
  simp [Lexeme.source, h]

/-- One scan over recognized bytes with paired double quotes: a unit other than
end-of-input is returned, the bytes consumed are exactly its source text, and the double
quotes that remain are paired again. -/
theorem scanFrom_step (input : List Nat) (p : Nat) (hp : p < input.length)
    (hrec : ∀ b ∈ input.drop p, recognized b = true)
    (hws : isWhitespace (byteAt input p) = false)
    (hev : Even ((input.drop p).count 34)) :
    ∃ tok q, scanFrom input p = .ok (tok, q) ∧ tok.Kind ≠ EOF ∧ p < q ∧ q ≤ input.length ∧
      input.drop p = tok.source ++ input.drop q ∧ Even ((input.drop q).count 34) := by
  have hd := drop_eq_byteAt_cons input p hp
  have hc : recognized (byteAt input p) = true :=
    hrec _ (by rw [hd]; exact List.mem_cons_self _ _)
  have h0 : byteAt input p ≠ 0 := by
    intro hz
    rw [hz] at hc
    exact absurd hc (by decide)
  unfold scanFrom
  simp only []
  rw [if_neg h0]
  by_cases h34 : byteAt input p = 34
  · -- a string literal
    rw [hd, h34, List.count_cons_self] at hev
    have hmem : 34 ∈ input.drop (p + 1) := by
      by_contra hn
      rw [List.count_eq_zero_of_not_mem hn] at hev
      exact absurd hev (by decide)
    have hsplit := List.takeWhile_append_dropWhile (fun b => b != 34) (input.drop (p + 1))
    have hne : (input.drop (p + 1)).dropWhile (fun b => b != 34) ≠ [] := by
      intro hnil
      have := (List.dropWhile_eq_nil_iff.mp hnil) 34 hmem
      simp at this
    have hhead := List.head_dropWhile_not (fun b => b != 34) (input.drop (p + 1)) hne
    obtain ⟨x, tail, hdw⟩ := List.exists_cons_of_ne_nil hne
    have hx : x = 34 := by
      simp only [hdw, List.head_cons] at hhead
      simpa using hhead
    subst hx
    have hdrop := drop_runLength (fun b => b != 34) input (p + 1)
    rw [hdw] at hdrop
    have hlen : p + 1 + runLength (fun b => b != 34) input (p + 1) < input.length := by
      by_contra hge
      rw [List.drop_eq_nil_of_le (by omega)] at hdrop
      exact absurd hdrop (by simp)
    have htail : input.drop (p + runLength (fun b => b != 34) input (p + 1) + 2) = tail := by
      have := congrArg (List.drop 1) hdrop
      simp only [List.drop_drop, List.drop_succ_cons, List.drop_zero] at this
      rw [← this]
      congr 1
      omega
    rw [if_pos h34, if_pos hmem]
    refine ⟨_, _, rfl, by simp, by omega, by omega, ?_, ?_⟩
    · rw [htail, hd, h34, Lexeme.source]
      simp only [if_true, take_runLength]
      conv_lhs => rw [← hsplit, hdw]
      simp
    · rw [htail]
      rw [← hsplit, hdw, List.count_append, List.count_cons_self,
        count_takeWhile_zero _ _ (by decide)] at hev
      have h2 : tail.count 34 + 1 + 1 = tail.count 34 + 2 := rfl
      rw [Nat.zero_add, h2] at hev
      exact (Nat.even_add.mp hev).mpr (by decide)
  rw [if_neg h34]
  have hsplitcount : ∀ cond : Nat → Bool, cond 34 = false →
      Even ((input.drop (p + runLength cond input p)).count 34) := by
    intro cond h
    rw [drop_runLength]
    have hs := List.takeWhile_append_dropWhile cond (input.drop p)
    rw [← hs, List.count_append, count_takeWhile_zero _ _ h, Nat.zero_add] at hev
    exact hev
  by_cases hl : isLetter (byteAt input p) = true
  · have hrun := runLength_succ isLetter input p hp hl
    have hle := runLength_le isLetter input p
    rw [if_pos hl]
    refine ⟨_, _, rfl, Lookup_ne_EOF _, by omega, by omega, ?_,
      hsplitcount isLetter (by decide)⟩
    rw [source_of_ne_STRING _ (Lookup_ne_STRING _), take_runLength, drop_runLength]
    exact (List.takeWhile_append_dropWhile isLetter (input.drop p)).symm
  rw [if_neg hl]
  by_cases hdg : isDigit (byteAt input p) = true
  · have hrun := runLength_succ isDigit input p hp hdg
    have hle := runLength_le isDigit input p
    rw [if_pos hdg]
    refine ⟨_, _, rfl, by simp, by omega, by omega, ?_,
      hsplitcount isDigit (by decide)⟩
    rw [source_of_ne_STRING _ (by simp), take_runLength, drop_runLength]
    exact (List.takeWhile_append_dropWhile isDigit (input.drop p)).symm
  rw [if_neg hdg]
  have hop : isOperatorChar (byteAt input p) = true := by
    simp only [recognized, Bool.or_eq_true, beq_iff_eq] at hc
    rcases hc with (((h | h) | h) | h) | h
    · rw [hws] at h; exact absurd h (by decide)
    · exact h
    · exact absurd h h34
    · exact absurd h hl
    · exact absurd h hdg
  have hlt : byteAt input p < 128 := by
    simp only [isOperatorChar, Bool.or_eq_true, beq_iff_eq] at hop
    omega
  have hev1 : Even ((input.drop (p + 1)).count 34) := by
    rw [hd, List.count_cons_of_ne (Ne.symm h34)] at hev
    exact hev
  by_cases hpair : (pairKind (byteAt input p)).isSome ∧ byteAt input (p + 1) = 61
  · have hp1 : p + 1 < input.length :=
      lt_length_of_byteAt_ne_zero input _ (by rw [hpair.2]; decide)
    have hd1 := drop_eq_byteAt_cons input (p + 1) hp1
    rw [if_pos hpair]
    refine ⟨_, _, rfl, ?_, by omega, by omega, ?_, ?_⟩
    · rw [newToken_pair _ _ hlt]
      exact pairKind_ne_EOF _
    · rw [newToken_pair _ _ hlt, source_of_ne_STRING _ (pairKind_ne_STRING _), hd, hd1, hpair.2]
      rfl
    · rw [hd1, hpair.2, List.count_cons_of_ne (by decide)] at hev1
      exact hev1
  · rw [if_neg hpair]
    refine ⟨_, _, rfl, ?_, by omega, by omega, ?_, hev1⟩
    · rw [newToken_single _ _ hlt]
      exact charKind_ne_EOF _
    · rw [newToken_single _ _ hlt, source_of_ne_STRING _ (charKind_ne_STRING _), hd]
      rfl
theorem reconstruct_atPos (input : List Nat) :
    ∀ (n p : Nat), p ≤ input.length → input.length - p < n →
      (∀ b ∈ input.drop p, recognized b = true) → Even ((input.drop p).count 34) →
      Lexer.reconstruct Lexeme.source n (atPos input p) = .ok (input.drop p) := by
  intro n
  induction n with
  | zero => intro p _ h; omega
  | succ n ih =>
    intro p hp hn hrec hev
    have hle := runLength_le isWhitespace input p
    have hsplit := List.takeWhile_append_dropWhile isWhitespace (input.drop p)
    have hdrop := drop_runLength isWhitespace input p
    unfold Lexer.reconstruct
    simp only [input_atPos, position_atPos]
    rw [skipWhitespace_atPos input _ p (by omega)]
    simp only [bind, Except.bind, position_atPos]
    rw [goSlice_atPos input p _ (by omega), next_atPos]
    unfold scanAt
    simp only [take_runLength]
    by_cases hp1 : p + runLength isWhitespace input p < input.length
    · have hws : isWhitespace (byteAt input (p + runLength isWhitespace input p)) = false := by
        cases hb : isWhitespace (byteAt input (p + runLength isWhitespace input p)) with
        | false => rfl
        | true =>
          exact absurd (byteAt_after_run isWhitespace input (input.length - p) p (le_refl _) hb)
            (by decide)
      have hrec1 : ∀ b ∈ input.drop (p + runLength isWhitespace input p), recognized b = true := by
        intro b hb
        rw [hdrop] at hb
        exact hrec b (by rw [← hsplit]; exact List.mem_append_right _ hb)
      have hev1 : Even ((input.drop (p + runLength isWhitespace input p)).count 34) := by
        rw [hdrop]
        rw [← hsplit, List.count_append, count_takeWhile_zero _ _ (by decide), Nat.zero_add] at hev
        exact hev
      obtain ⟨tok, q, hscan, hk, hpq, hq, hsrc, hevq⟩ :=
        scanFrom_step input _ hp1 hrec1 hws hev1
      rw [hscan]
      simp only [Except.map, if_neg hk]
      rw [ih q hq (by omega) (by
        intro b hb
        exact hrec1 b (by rw [hsrc]; exact List.mem_append_right _ hb)) hevq]
      simp only [pure, Except.pure]
      rw [List.append_assoc, ← hsrc, hdrop, hsplit]
    · have hb := byteAt_of_length_le input (p + runLength isWhitespace input p) (by omega)
      rw [scanFrom_of_zero input _ hb]
      have hk : eofUnit.Kind = EOF := rfl
      simp only [Except.map, if_pos hk, pure, Except.pure]
      rw [← take_runLength, List.take_of_length_le (by simp; omega)]

/-- C8 as stated fails: the input made of a quoted `a` is tokenized into one string unit
whose literal has lost the two double quotes, so the literals (with the skipped
whitespace) never add up to the input. -/
theorem literal_roundtrip_loses_quotes :
    ¬ ∀ input : List Nat, (∀ b ∈ input, recognized b = true) → Even (input.count 34) →
      ∃ n, Lexer.reconstruct Lexeme.Literal n (New input) = .ok input := by
  intro h
  obtain ⟨n, hn⟩ := h (ascii "\"a\"") (by decide) (by decide)
  rcases n with _ | _ | n
  · exact absurd hn (by decide)
  · exact absurd hn (by decide)
  · have hr : Lexer.reconstruct Lexeme.Literal (n + 2) (New (ascii "\"a\"")) = .ok (ascii "a") :=
      rfl
    rw [hr] at hn
    exact absurd hn (by decide)

/-- C8 amended: for every input made of recognized bytes only, in which the double quotes
come in pairs, concatenating the source text of the units returned by successive
`NextToken` calls up to end-of-input (the literal, put back between its two double quotes
for a string unit), each preceded by the whitespace skipped before it, reconstructs the
input exactly. -/
theorem source_roundtrip (input : List Nat) (hrec : ∀ b ∈ input, recognized b = true)
    (hq : Even (input.count 34)) :
    Lexer.reconstruct Lexeme.source (input.length + 1) (New input) = .ok input := by
  rw [New_eq_atPos]
  have h := reconstruct_atPos input (input.length + 1) 0 (Nat.zero_le _) (by omega)
    (by simpa using hrec) (by simpa using hq)
  simpa using h

theorem source_roundtrip_witness :
    (∀ b ∈ ascii "let s := \"a b\" ;", recognized b = true) ∧
    Even ((ascii "let s := \"a b\" ;").count 34) ∧
    Lexer.reconstruct Lexeme.source ((ascii "let s := \"a b\" ;").length + 1)
      (New (ascii "let s := \"a b\" ;")) = .ok (ascii "let s := \"a b\" ;") :=
  ⟨by decide, by decide, source_roundtrip (ascii "let s := \"a b\" ;") (by decide) (by decide)⟩

/-! ## Properties of the parser -/

theorem nextToken_onStream (scope : Scope) (a : Lexeme) (ts : List Lexeme) :
    Parser.nextToken streamNext (onStream scope (a :: ts)) = .ok (onStream scope ts) := by
  rcases ts with _ | ⟨b, _ | ⟨c, l⟩⟩ <;> rfl

theorem New_onStream (ts : List Lexeme) :
    Parser.New streamNext ts = .ok (onStream { Objects := [] } ts) := by
  rcases ts with _ | ⟨a, _ | ⟨b, l⟩⟩ <;> rfl

theorem IsOpertor_ne_SEMICOLON (k : Token) (h : k.IsOpertor = true) : k ≠ SEMICOLON := by
  rintro rfl; exact absurd h (by decide)

theorem IsOpertor_ne_LPAREN (k : Token) (h : k.IsOpertor = true) : k ≠ LPAREN := by
  rintro rfl; exact absurd h (by decide)

theorem IsOpertor_ne_EOF (k : Token) (h : k.IsOpertor = true) : k ≠ EOF := by
  rintro rfl; exact absurd h (by decide)

theorem parseUnaryExpr_operand (scope : Scope) (t : Lexeme) (ts : List Lexeme)
    (ht : t.Kind.isOperand = true) :
    Parser.parseUnaryExpr streamNext (onStream scope (t :: ts)) =
      .ok (Expression.unary plusUnit t, onStream scope (t :: ts)) := by
  have hcur : (onStream scope (t :: ts)).curToken = t := by
    rcases ts with _ | ⟨b, l⟩ <;> rfl
  unfold Parser.parseUnaryExpr
  rw [hcur]
  have : ¬ (t.Kind = ADD ∨ t.Kind = SUBT ∨ t.Kind = NOT ∨ t.Kind = XOR ∨ t.Kind = AND) := by
    intro h
    rcases h with h | h | h | h | h <;> rw [h] at ht <;> exact absurd ht (by decide)
  simp only [if_neg this, bind, Except.bind, pure, Except.pure, hcur]
  rfl

theorem curToken_onStream (scope : Scope) (a : Lexeme) (ts : List Lexeme) :
    (onStream scope (a :: ts)).curToken = a := by
  rcases ts with _ | ⟨b, l⟩ <;> rfl

theorem peekToken_onStream (scope : Scope) (a b : Lexeme) (ts : List Lexeme) :
    (onStream scope (a :: b :: ts)).peekToken = b := rfl

theorem find?_filter_ne (objects : List (List Nat × LetStatement)) (key other : List Nat)
    (hne : other ≠ key) :
    (objects.filter (fun e => decide (e.1 ≠ key))).find? (fun e => decide (e.1 = other))
      = objects.find? (fun e => decide (e.1 = other)) := by
  induction objects with
  | nil => rfl
  | cons e objects ih =>
    by_cases hk : e.1 = key
    · have ho : decide (e.1 = other) = false := by
        rw [hk]; exact decide_eq_false (fun h => hne h.symm)
      rw [List.filter_cons_of_neg (by simp [hk]), List.find?_cons, ho]
      exact ih
    · rw [List.filter_cons_of_pos (by simp [hk]), List.find?_cons, List.find?_cons, ih]

/-- C6: for a statement `let NAME := OPERAND ;` with a single-unit operand, `parseStatement`
returns the let statement with `Name.Value = NAME` and the operand as its expression,
and the scope table afterwards maps NAME to that statement whatever it held before;
other names keep their entry. -/
theorem parseStatement_let_binds (scope : Scope) (letTok name assignTok operand semi : Lexeme)
    (rest : List Lexeme) (fuel : Nat)
    (hlet : letTok.Kind = LET) (hname : name.Kind = IDENT) (hassign : assignTok.Kind = ASSIGN)
    (hoperand : operand.Kind.isOperand = true) (hsemi : semi.Kind = SEMICOLON) :
    Parser.parseStatement streamNext (fuel + 1)
        (onStream scope (letTok :: name :: assignTok :: operand :: semi :: rest))
      = .ok (some (Statement.letStmt (simpleLet letTok name operand)),
          { onStream scope (operand :: semi :: rest) with
            topScope := scope.set name.Literal (simpleLet letTok name operand) })
    ∧ (scope.set name.Literal (simpleLet letTok name operand)).get name.Literal
        = some (simpleLet letTok name operand)
    ∧ ∀ other, other ≠ name.Literal →
        (scope.set name.Literal (simpleLet letTok name operand)).get other = scope.get other := by
  refine ⟨?_, ?_, ?_⟩
  · have hop1 : ¬ operand.Kind = LPAREN := by
      intro h; rw [h] at hoperand; exact absurd hoperand (by decide)
    have hn1 := nextToken_onStream scope letTok (name :: assignTok :: operand :: semi :: rest)
    have hn2 := nextToken_onStream scope name (assignTok :: operand :: semi :: rest)
    have hn3 := nextToken_onStream scope assignTok (operand :: semi :: rest)
    have hu := parseUnaryExpr_operand scope operand (semi :: rest) hoperand
    have hsemi' : semi.Kind.IsOpertor = false := by rw [hsemi]; rfl
    unfold Parser.parseStatement
    rw [curToken_onStream, hlet]
    simp only [Parser.parseLetStatement, Parser.peekTokenIs, peekToken_onStream, hname, hassign,
      beq_self_eq_true, if_true, bind, Except.bind, pure, Except.pure, hn1, hn2, hn3,
      curToken_onStream, Bool.not_true, Bool.false_eq_true, if_false]
    rw [Parser.parseExpression]
    simp only [Parser.tokenIs, curToken_onStream, peekToken_onStream, hsemi', beq_iff_eq, hop1,
      Bool.or_false, decide_False, Bool.false_eq_true, if_false, hu]
    rfl
  · simp [Scope.get, Scope.set]
  · intro other hne
    have hne' : ¬ name.Literal = other := fun h => hne h.symm
    simp only [Scope.get, Scope.set, List.find?_cons, hne', decide_False]
    rw [find?_filter_ne _ _ _ hne]

theorem parseStatement_let_binds_witness :
    (Parser.New streamNext [⟨LET, ascii "let", none⟩, ⟨IDENT, ascii "y", none⟩,
        ⟨ASSIGN, ascii ":=", some ASSIGN⟩, ⟨INT, ascii "5", none⟩,
        ⟨SEMICOLON, ascii ";", some SEMICOLON⟩]
      = .ok (onStream { Objects := [] } [⟨LET, ascii "let", none⟩, ⟨IDENT, ascii "y", none⟩,
        ⟨ASSIGN, ascii ":=", some ASSIGN⟩, ⟨INT, ascii "5", none⟩,
        ⟨SEMICOLON, ascii ";", some SEMICOLON⟩]))
    ∧ Parser.parseStatement streamNext 1
        (onStream { Objects := [] } [⟨LET, ascii "let", none⟩, ⟨IDENT, ascii "y", none⟩,
          ⟨ASSIGN, ascii ":=", some ASSIGN⟩, ⟨INT, ascii "5", none⟩,
          ⟨SEMICOLON, ascii ";", some SEMICOLON⟩])
      = .ok (some (Statement.letStmt
            (simpleLet ⟨LET, ascii "let", none⟩ ⟨IDENT, ascii "y", none⟩ ⟨INT, ascii "5", none⟩)),
          { onStream { Objects := [] } [⟨INT, ascii "5", none⟩, ⟨SEMICOLON, ascii ";", some SEMICOLON⟩] with
            topScope := Scope.set { Objects := [] } (ascii "y")
              (simpleLet ⟨LET, ascii "let", none⟩ ⟨IDENT, ascii "y", none⟩ ⟨INT, ascii "5", none⟩) }) :=
  ⟨rfl, (parseStatement_let_binds { Objects := [] } ⟨LET, ascii "let", none⟩
    ⟨IDENT, ascii "y", none⟩ ⟨ASSIGN, ascii ":=", some ASSIGN⟩ ⟨INT, ascii "5", none⟩
    ⟨SEMICOLON, ascii ";", some SEMICOLON⟩ [] 0 rfl rfl rfl rfl rfl).1⟩

theorem isOperand_not_IsOpertor (k : Token) (h : k.isOperand = true) : k.IsOpertor = false := by
  cases k <;> first | rfl | exact absurd h (by decide)

theorem isOperand_ne_EOF (k : Token) (h : k.isOperand = true) : k ≠ EOF := by
  rintro rfl; exact absurd h (by decide)

theorem isOperand_ne_SEMICOLON (k : Token) (h : k.isOperand = true) : k ≠ SEMICOLON := by
  rintro rfl; exact absurd h (by decide)

theorem isOperand_ne_LPAREN (k : Token) (h : k.isOperand = true) : k ≠ LPAREN := by
  rintro rfl; exact absurd h (by decide)

/-- One iteration of the top-level loop with the cursor on an operator: a complete node
is shifted first, then the operator is recorded and the cursor moves on. -/
theorem parseBinaryLoop_operator (scope : Scope) (fuel : Nat) (endToken : Token) (prec : Nat)
    (e : BinaryExpression) (o t : Lexeme) (ts : List Lexeme)
    (ho : o.Kind.IsOpertor = true) (hend : o.Kind ≠ endToken) (ht : t.Kind ≠ EOF)
    (he : e.completeNode = true ∨ e.Operator.Kind.IsOpertor = false) :
    Parser.parseBinaryLoop streamNext (fuel + 1) endToken false prec e
        (onStream scope (o :: t :: ts))
      = Parser.parseBinaryLoop streamNext fuel endToken false prec
          ((if e.completeNode then e.shiftNode else e).setOperator o)
          (onStream scope (t :: ts)) := by
  have hb1 : (o.Kind == endToken) = false := by simpa using hend
  have hb2 : (o.Kind == LPAREN) = false := by simpa using IsOpertor_ne_LPAREN _ ho
  have hb3 : (t.Kind == EOF) = false := by simpa using ht
  have hn := nextToken_onStream scope o (t :: ts)
  have hop : (if e.completeNode = true then e.shiftNode else e).Operator.Kind.IsOpertor = false := by
    by_cases hc : e.completeNode = true
    · rw [if_pos hc]; rfl
    · rw [if_neg hc]
      rcases he with he | he
      · exact absurd he hc
      · exact he
  rw [Parser.parseBinaryLoop]
  simp only [Parser.tokenIs, Parser.peekTokenIs, curToken_onStream, peekToken_onStream, hb1, hb2,
    hb3, ho, hop, Bool.and_false, Bool.false_eq_true, if_false, Bool.not_false, Bool.and_true,
    Bool.true_and, if_true, bind, Except.bind, pure, Except.pure, Bool.false_and, hn]

/-- One iteration of the top-level loop with the cursor on an operand, when the node is
not complete and the unit after the operand does not bind tighter than the operator of
the node: the operand becomes the next subnode and the cursor moves on. -/
theorem parseBinaryLoop_operand (scope : Scope) (fuel : Nat) (endToken : Token) (prec : Nat)
    (e : BinaryExpression) (t y : Lexeme) (ts : List Lexeme)
    (ht : t.Kind.isOperand = true) (hend : t.Kind ≠ endToken) (hy : y.Kind ≠ EOF)
    (he : e.completeNode = false)
    (hprec : e.Operator.Kind.IsOpertor = false
      ∨ y.Kind.Precedence ≤ e.Operator.Kind.Precedence) :
    Parser.parseBinaryLoop streamNext (fuel + 1) endToken false prec e
        (onStream scope (t :: y :: ts))
      = Parser.parseBinaryLoop streamNext fuel endToken false prec
          (e.addSubnode (Expression.unary plusUnit t)) (onStream scope (y :: ts)) := by
  have hb1 : (t.Kind == endToken) = false := by simpa using hend
  have hb2 : (t.Kind == LPAREN) = false := by simpa using isOperand_ne_LPAREN _ ht
  have hb3 : (y.Kind == EOF) = false := by simpa using hy
  have ht3 : t.Kind.IsOpertor = false := isOperand_not_IsOpertor _ ht
  have hn := nextToken_onStream scope t (y :: ts)
  have hu := parseUnaryExpr_operand scope t (y :: ts) ht
  rw [Parser.parseBinaryLoop]
  rcases hprec with hp | hp
  · simp only [Parser.tokenIs, Parser.peekTokenIs, Parser.peekPrecedence, curToken_onStream,
      peekToken_onStream, hb1, hb2, hb3, he, ht3, hp, hu, hn, Bool.and_false, Bool.false_eq_true,
      if_false, Bool.not_false, Bool.and_true, Bool.true_and, if_true, bind, Except.bind, pure,
      Except.pure, Bool.false_and, decide_False, ite_self]
  · have hp' : ¬ (y.Kind.Precedence > e.Operator.Kind.Precedence) := by omega
    simp only [Parser.tokenIs, Parser.peekTokenIs, Parser.peekPrecedence, curToken_onStream,
      peekToken_onStream, hb1, hb2, hb3, he, ht3, hp', hu, hn, Bool.and_false,
      Bool.false_eq_true, if_false, Bool.not_false, Bool.and_true, Bool.true_and, if_true, bind,
      Except.bind, pure, Except.pure, Bool.false_and, decide_False, ite_self]

/-- The stream behind a chain starts with a unit that is not end-of-input and whose
precedence does not exceed the level of the chain. -/
theorem chain_head (ops : List (Lexeme × Lexeme)) (semi : Lexeme) (rest : List Lexeme)
    (level : Nat) (hsemi : semi.Kind = SEMICOLON)
    (hops : ∀ x ∈ ops, x.1.Kind.IsOpertor = true ∧ x.1.Kind.Precedence = level
      ∧ x.2.Kind.isOperand = true) :
    ∃ x ts, chainTokens ops ++ semi :: rest = x :: ts ∧ x.Kind ≠ EOF
      ∧ x.Kind.Precedence ≤ level := by
  cases ops with
  | nil => exact ⟨semi, rest, rfl, by rw [hsemi]; decide, by rw [hsemi]; exact Nat.zero_le _⟩
  | cons x ops =>
    obtain ⟨o, t⟩ := x
    obtain ⟨ho, hp, _⟩ := hops (o, t) (List.mem_cons_self _ _)
    exact ⟨o, t :: (chainTokens ops ++ semi :: rest), rfl, IsOpertor_ne_EOF _ ho, le_of_eq hp⟩

/-- From a complete node `e` with the cursor on the first operator of the remaining chain,
the loop of `parseBinaryExpr` in top-level mode builds the left-associative tree and
stops on the semicolon. -/
theorem parseBinaryLoop_chain (scope : Scope) (semi : Lexeme) (rest : List Lexeme)
    (level : Nat) (hsemi : semi.Kind = SEMICOLON) :
    ∀ (ops : List (Lexeme × Lexeme)) (e : BinaryExpression) (extra : Nat),
      e.completeNode = true →
      (∀ x ∈ ops, x.1.Kind.IsOpertor = true ∧ x.1.Kind.Precedence = level
        ∧ x.2.Kind.isOperand = true) →
      Parser.parseBinaryLoop streamNext (extra + 2 * ops.length + 1) SEMICOLON false 0 e
          (onStream scope (chainTokens ops ++ semi :: rest))
        = .ok (leftChain e ops, onStream scope (semi :: rest)) := by
  intro ops
  induction ops with
  | nil =>
    intro e extra _ _
    rw [show extra + 2 * ([] : List (Lexeme × Lexeme)).length + 1 = extra + 1 from rfl,
      Parser.parseBinaryLoop]
    simp only [chainTokens, List.nil_append, Parser.tokenIs, curToken_onStream, hsemi,
      beq_self_eq_true, if_true, pure, Except.pure, leftChain]
  | cons x ops ih =>
    intro e extra he hops
    obtain ⟨o, t⟩ := x
    have ho : o.Kind.IsOpertor = true := (hops (o, t) (List.mem_cons_self _ _)).1
    have hp : o.Kind.Precedence = level := (hops (o, t) (List.mem_cons_self _ _)).2.1
    have ht : t.Kind.isOperand = true := (hops (o, t) (List.mem_cons_self _ _)).2.2
    have hops' : ∀ x ∈ ops, x.1.Kind.IsOpertor = true ∧ x.1.Kind.Precedence = level
        ∧ x.2.Kind.isOperand = true := fun x hx => hops x (List.mem_cons_of_mem _ hx)
    obtain ⟨y, ts, hts, hy, hyp⟩ := chain_head ops semi rest level hsemi hops'
    have hfuel : extra + 2 * ((o, t) :: ops).length + 1 = (extra + 2 * ops.length + 1) + 1 + 1 := by
      simp only [List.length_cons]; omega
    have hnew : (BinaryExpression.mk o (some e) [Expression.unary plusUnit t]).completeNode
        = true := by
      simp [BinaryExpression.completeNode, BinaryExpression.Operator, BinaryExpression.Left,
        BinaryExpression.Subnodes, ho]
    rw [hfuel]
    simp only [chainTokens, List.cons_append]
    rw [hts, parseBinaryLoop_operator scope _ SEMICOLON 0 e o t (y :: ts) ho
      (IsOpertor_ne_SEMICOLON _ ho) (isOperand_ne_EOF _ ht) (Or.inl he)]
    rw [he]
    simp only [if_true]
    rw [parseBinaryLoop_operand scope _ SEMICOLON 0 _ t y ts ht (isOperand_ne_SEMICOLON _ ht) hy
      (by simp [BinaryExpression.completeNode, BinaryExpression.shiftNode,
        BinaryExpression.setOperator, BinaryExpression.Operator, BinaryExpression.Left,
        BinaryExpression.Subnodes])
      (Or.inr (by simp only [BinaryExpression.setOperator, BinaryExpression.Operator]; omega))]
    rw [← hts]
    have := ih (BinaryExpression.mk o (some e) [Expression.unary plusUnit t]) extra hnew hops'
    simpa [BinaryExpression.shiftNode, BinaryExpression.setOperator, BinaryExpression.addSubnode,
      BinaryExpression.Operator, BinaryExpression.Left, BinaryExpression.Subnodes, leftChain]
      using this

theorem operators_leftChain :
    ∀ (ops : List (Lexeme × Lexeme)) (e : BinaryExpression),
      (leftChain e ops).operators = (ops.map Prod.fst).reverse ++ e.operators := by
  intro ops
  induction ops with
  | nil => intro e; rfl
  | cons x ops ih =>
    intro e
    obtain ⟨o, t⟩ := x
    rw [leftChain, ih]
    simp [BinaryExpression.operators]

theorem leftmost_leftChain :
    ∀ (ops : List (Lexeme × Lexeme)) (e : BinaryExpression),
      (leftChain e ops).leftmost = e.leftmost := by
  intro ops
  induction ops with
  | nil => intro e; rfl
  | cons x ops ih =>
    intro e
    obtain ⟨o, t⟩ := x
    rw [leftChain, ih]
    rfl

theorem top_leftChain :
    ∀ (ops : List (Lexeme × Lexeme)) (e : BinaryExpression) (o t : Lexeme),
      e.Operator = o → e.Subnodes.getLast? = some (Expression.unary plusUnit t) →
      (leftChain e ops).Operator = (((o, t) :: ops).getLast (List.cons_ne_nil _ _)).1 ∧
      (leftChain e ops).Subnodes.getLast?
        = some (Expression.unary plusUnit (((o, t) :: ops).getLast (List.cons_ne_nil _ _)).2) := by
  intro ops
  induction ops with
  | nil => intro e o t h1 h2; exact ⟨h1, h2⟩
  | cons x ops ih =>
    intro e o t _ _
    obtain ⟨o', t'⟩ := x
    have := ih (BinaryExpression.mk o' (some e) [Expression.unary plusUnit t']) o' t' rfl rfl
    rw [leftChain, List.getLast_cons (List.cons_ne_nil _ _)]
    exact this

/-- C7: for a semicolon-terminated chain of N >= 2 single-unit operands joined by operators
of one precedence level, `parseBinaryExpr` in top-level mode returns the left-associative
tree: its top node holds the last operator and the last operand, the `left` links visit
the earlier operators in reverse source order and end in the node that holds the first
operand (with the first operator and the second operand), and the cursor is left on the
semicolon. -/
theorem parseBinaryExpr_left_assoc (scope : Scope) (t1 o1 t2 semi : Lexeme)
    (ops : List (Lexeme × Lexeme)) (rest : List Lexeme) (extra : Nat)
    (ht1 : t1.Kind.isOperand = true) (ho1 : o1.Kind.IsOpertor = true)
    (ht2 : t2.Kind.isOperand = true)
    (hops : ∀ x ∈ ops, x.1.Kind.IsOpertor = true ∧ x.1.Kind.Precedence = o1.Kind.Precedence
      ∧ x.2.Kind.isOperand = true)
    (hsemi : semi.Kind = SEMICOLON) :
    Parser.parseBinaryExpr streamNext (extra + 2 * ops.length + 5) SEMICOLON false 0
        (onStream scope (t1 :: o1 :: t2 :: (chainTokens ops ++ semi :: rest)))
      = .ok (leftChain (BinaryExpression.mk o1 none
            [Expression.unary plusUnit t1, Expression.unary plusUnit t2]) ops,
          onStream scope (semi :: rest))
    ∧ (leftChain (BinaryExpression.mk o1 none
          [Expression.unary plusUnit t1, Expression.unary plusUnit t2]) ops).Operator
        = (((o1, t2) :: ops).getLast (List.cons_ne_nil _ _)).1
    ∧ (leftChain (BinaryExpression.mk o1 none
          [Expression.unary plusUnit t1, Expression.unary plusUnit t2]) ops).Subnodes.getLast?
        = some (Expression.unary plusUnit (((o1, t2) :: ops).getLast (List.cons_ne_nil _ _)).2)
    ∧ (leftChain (BinaryExpression.mk o1 none
          [Expression.unary plusUnit t1, Expression.unary plusUnit t2]) ops).operators
        = (o1 :: ops.map Prod.fst).reverse
    ∧ (leftChain (BinaryExpression.mk o1 none
          [Expression.unary plusUnit t1, Expression.unary plusUnit t2]) ops).leftmost
        = BinaryExpression.mk o1 none
            [Expression.unary plusUnit t1, Expression.unary plusUnit t2] := by
  have htop := top_leftChain ops (BinaryExpression.mk o1 none
    [Expression.unary plusUnit t1, Expression.unary plusUnit t2]) o1 t2 rfl rfl
  refine ⟨?_, htop.1, htop.2, ?_, ?_⟩
  · obtain ⟨y, ts, hts, hy, hyp⟩ := chain_head ops semi rest _ hsemi hops
    have hfuel : extra + 2 * ops.length + 5 = (extra + 2 * ops.length + 1) + 1 + 1 + 1 + 1 := by
      omega
    have hfirst : (BinaryExpression.mk o1 none
        [Expression.unary plusUnit t1, Expression.unary plusUnit t2]).completeNode = true := by
      simp [BinaryExpression.completeNode, BinaryExpression.Operator, BinaryExpression.Left,
        BinaryExpression.Subnodes, ho1]
    rw [hfuel, Parser.parseBinaryExpr]
    rw [parseBinaryLoop_operand scope _ SEMICOLON 0 BinaryExpression.zero t1 o1 _ ht1
      (isOperand_ne_SEMICOLON _ ht1) (IsOpertor_ne_EOF _ ho1) rfl (Or.inl rfl)]
    rw [parseBinaryLoop_operator scope _ SEMICOLON 0
      (BinaryExpression.zero.addSubnode (Expression.unary plusUnit t1)) o1 t2 _ ho1
      (IsOpertor_ne_SEMICOLON _ ho1) (isOperand_ne_EOF _ ht2) (Or.inr rfl)]
    rw [hts, parseBinaryLoop_operand scope _ SEMICOLON 0 _ t2 y ts ht2
      (isOperand_ne_SEMICOLON _ ht2) hy
      (by simp [BinaryExpression.completeNode, BinaryExpression.zero,
        BinaryExpression.addSubnode, BinaryExpression.setOperator, BinaryExpression.Operator,
        BinaryExpression.Left, BinaryExpression.Subnodes, Lexeme.zero, Token.IsOpertor])
      (Or.inr (by
        simp only [BinaryExpression.completeNode, BinaryExpression.zero,
          BinaryExpression.addSubnode, BinaryExpression.setOperator, BinaryExpression.Operator,
          BinaryExpression.Left, BinaryExpression.Subnodes, Lexeme.zero, Token.IsOpertor,
          Bool.false_and, Bool.false_eq_true, if_false]
        exact hyp))]
    rw [← hts]
    have := parseBinaryLoop_chain scope semi rest _ hsemi ops _ extra hfirst hops
    simpa [BinaryExpression.completeNode, BinaryExpression.zero, BinaryExpression.addSubnode,
      BinaryExpression.setOperator, BinaryExpression.Operator, BinaryExpression.Left,
      BinaryExpression.Subnodes, Lexeme.zero, Token.IsOpertor] using this
  · rw [operators_leftChain]
    simp [BinaryExpression.operators]
  · rw [leftmost_leftChain]
    rfl

/-- C2: parsing `1 + 2 * 3;` gives one expression statement whose expression is a binary
node with operator `+`, first operand the unary term 1 (default operator `+`) and second
operand the nested binary node `2 * 3`. -/
theorem parse_add_mul :
    parseSource 20 (ascii "1 + 2 * 3;") = .ok
      { Statements := [Statement.exprStmt ⟨INT, ascii "1", none⟩
          (Expression.binary (BinaryExpression.mk ⟨ADD, ascii "+", some ADD⟩ none
            [Expression.unary plusUnit ⟨INT, ascii "1", none⟩,
             Expression.binary (BinaryExpression.mk ⟨MULT, ascii "*", some MULT⟩ none
              [Expression.unary plusUnit ⟨INT, ascii "2", none⟩,
               Expression.unary plusUnit ⟨INT, ascii "3", none⟩])]))] } := rfl

/-- C3: parsing `(1 + 2) * 3;` gives one expression statement whose expression is a binary
node with operator `*`, first operand the parenthesized binary node `1 + 2` and second
operand the unary term 3. -/
theorem parse_paren_mul :
    parseSource 20 (ascii "(1 + 2) * 3;") = .ok
      { Statements := [Statement.exprStmt ⟨LPAREN, ascii "(", some LPAREN⟩
          (Expression.binary (BinaryExpression.mk ⟨MULT, ascii "*", some MULT⟩ none
            [Expression.paren ⟨LPAREN, ascii "(", some LPAREN⟩
              (Expression.binary (BinaryExpression.mk ⟨ADD, ascii "+", some ADD⟩ none
                [Expression.unary plusUnit ⟨INT, ascii "1", none⟩,
                 Expression.unary plusUnit ⟨INT, ascii "2", none⟩]))
              ⟨RPAREN, ascii ")", some RPAREN⟩,
             Expression.unary plusUnit ⟨INT, ascii "3", none⟩]))] } := rfl

/-- C4 at the failing input: on `(1;` the call of `parseParenExpr` does not panic. It
returns a parenthesized expression whose closing marker is the unit `1`, with the paren
counter at zero, and the whole parse returns a program of one statement. The same holds
for `((1);`, where two opening parentheses meet one closing parenthesis. -/
theorem parseParenExpr_unclosed_returns :
    parseParenSource 10 (ascii "(1;") = .ok
      (Expression.paren ⟨LPAREN, ascii "(", some LPAREN⟩
        (Expression.unary plusUnit ⟨INT, ascii "1", none⟩) ⟨INT, ascii "1", none⟩, 0)
    ∧ parseSource 20 (ascii "(1;") = .ok
      { Statements := [Statement.exprStmt ⟨LPAREN, ascii "(", some LPAREN⟩
          (Expression.binary (BinaryExpression.mk Lexeme.zero none
            [Expression.paren ⟨LPAREN, ascii "(", some LPAREN⟩
              (Expression.unary plusUnit ⟨INT, ascii "1", none⟩) ⟨INT, ascii "1", none⟩]))] }
    ∧ parseParenSource 10 (ascii "((1);") = .ok
      (Expression.paren ⟨LPAREN, ascii "(", some LPAREN⟩
        (Expression.unary plusUnit ⟨INT, ascii "1", none⟩)
        ⟨RPAREN, ascii ")", some RPAREN⟩, 0) :=
  ⟨rfl, rfl, rfl⟩

/-- C5 at the failing input: on the balanced input `((1));` the call of `parseParenExpr`
returns with the paren counter at -1 (the parse as a whole succeeds), and on `(1));` it
returns with the counter at -2. -/
theorem parseParenExpr_counter_negative :
    parseParenSource 10 (ascii "((1));") = .ok
      (Expression.paren ⟨LPAREN, ascii "(", some LPAREN⟩
        (Expression.unary plusUnit ⟨INT, ascii "1", none⟩)
        ⟨RPAREN, ascii ")", some RPAREN⟩, -1)
    ∧ parseSource 20 (ascii "((1));") = .ok
      { Statements := [Statement.exprStmt ⟨LPAREN, ascii "(", some LPAREN⟩
          (Expression.binary (BinaryExpression.mk Lexeme.zero none
            [Expression.paren ⟨LPAREN, ascii "(", some LPAREN⟩
              (Expression.unary plusUnit ⟨INT, ascii "1", none⟩)
              ⟨RPAREN, ascii ")", some RPAREN⟩]))] }
    ∧ parseParenSource 10 (ascii "(1));") = .ok
      (Expression.paren ⟨LPAREN, ascii "(", some LPAREN⟩
        (Expression.unary plusUnit ⟨INT, ascii "1", none⟩)
        ⟨RPAREN, ascii ")", some RPAREN⟩, -2) :=
  ⟨rfl, rfl, rfl⟩

/-- The statement of `let y := 5;` read through the tokenizer: the program holds the let
statement that binds `y` to the unary term 5. -/
theorem parseSource_let_y :
    parseSource 20 (ascii "let y := 5;") = .ok
      { Statements := [Statement.letStmt
          (simpleLet ⟨LET, ascii "let", none⟩ ⟨IDENT, ascii "y", none⟩ ⟨INT, ascii "5", none⟩)] } :=
  rfl

/-- The chain `1 + 2 + 3 + 4;` read through the tokenizer: the expression statement holds
the left-associative tree. -/
theorem parseSource_chain_of_four :
    parseSource 20 (ascii "1 + 2 + 3 + 4;") = .ok
      { Statements := [Statement.exprStmt ⟨INT, ascii "1", none⟩
          (Expression.binary (leftChain
            (BinaryExpression.mk ⟨ADD, ascii "+", some ADD⟩ none
              [Expression.unary plusUnit ⟨INT, ascii "1", none⟩,
               Expression.unary plusUnit ⟨INT, ascii "2", none⟩])
            [(⟨ADD, ascii "+", some ADD⟩, ⟨INT, ascii "3", none⟩),
             (⟨ADD, ascii "+", some ADD⟩, ⟨INT, ascii "4", none⟩)]))] } :=
  rfl

theorem parseBinaryExpr_left_assoc_witness :
    Parser.parseBinaryExpr streamNext 9 SEMICOLON false 0
        (onStream { Objects := [] }
          [⟨INT, ascii "1", none⟩, ⟨ADD, ascii "+", some ADD⟩, ⟨INT, ascii "2", none⟩,
           ⟨ADD, ascii "+", some ADD⟩, ⟨INT, ascii "3", none⟩,
           ⟨ADD, ascii "+", some ADD⟩, ⟨INT, ascii "4", none⟩,
           ⟨SEMICOLON, ascii ";", some SEMICOLON⟩])
      = .ok (BinaryExpression.mk ⟨ADD, ascii "+", some ADD⟩
          (some (BinaryExpression.mk ⟨ADD, ascii "+", some ADD⟩
            (some (BinaryExpression.mk ⟨ADD, ascii "+", some ADD⟩ none
              [Expression.unary plusUnit ⟨INT, ascii "1", none⟩,
               Expression.unary plusUnit ⟨INT, ascii "2", none⟩]))
            [Expression.unary plusUnit ⟨INT, ascii "3", none⟩]))
          [Expression.unary plusUnit ⟨INT, ascii "4", none⟩],
        onStream { Objects := [] } [⟨SEMICOLON, ascii ";", some SEMICOLON⟩]) :=
  (parseBinaryExpr_left_assoc { Objects := [] } ⟨INT, ascii "1", none⟩ ⟨ADD, ascii "+", some ADD⟩
    ⟨INT, ascii "2", none⟩ ⟨SEMICOLON, ascii ";", some SEMICOLON⟩
    [(⟨ADD, ascii "+", some ADD⟩, ⟨INT, ascii "3", none⟩),
     (⟨ADD, ascii "+", some ADD⟩, ⟨INT, ascii "4", none⟩)] [] 0 rfl rfl rfl
    (by decide) rfl).1
/-! ## Further properties of the tokenizer -/

theorem takeWhile_append_stop (cond : Nat → Bool) (pre rest : List Nat)
    (hpre : ∀ b ∈ pre, cond b = true) (hrest : ∀ b, rest.head? = some b → cond b = false) :
    (pre ++ rest).takeWhile cond = pre := by
  induction pre with
  | nil =>
    cases rest with
    | nil => rfl
    | cons c rest =>
      rw [List.nil_append, List.takeWhile_cons, hrest c rfl]
      rfl
  | cons a pre ih =>
    rw [List.cons_append, List.takeWhile_cons, hpre a (List.mem_cons_self _ _),
      ih (fun b hb => hpre b (List.mem_cons_of_mem _ hb))]
    rfl

theorem runLength_prefix (cond : Nat → Bool) (pre rest : List Nat)
    (hpre : ∀ b ∈ pre, cond b = true) (hrest : ∀ b, rest.head? = some b → cond b = false) :
    runLength cond (pre ++ rest) 0 = pre.length := by
  unfold runLength
  rw [List.drop_zero, takeWhile_append_stop cond pre rest hpre hrest]

theorem byteAt_append_length (pre rest : List Nat) :
    byteAt (pre ++ rest) pre.length = rest.head?.getD 0 := by
  unfold byteAt
  rw [List.getD_eq_getElem?_getD, List.getElem?_append_right (le_refl _), Nat.sub_self]
  cases rest <;> simp

theorem byteAt_append_succ (pre : List Nat) (c : Nat) (rest : List Nat) :
    byteAt (pre ++ c :: rest) (pre.length + 1) = rest.head?.getD 0 := by
  have h := byteAt_append_length (pre ++ [c]) rest
  simpa using h

/-- C11: when the first byte `c` after the leading whitespace is one of `:`, `!`, `<`, `>`,
`NextToken` returns the two-byte unit (ASSIGN, NEQ, LEQ, GEQ) with literal `c=` and leaves
the cursor two bytes further if the byte after `c` is `=`; otherwise it returns the
one-byte unit (COLON, NOT, LSS, GTR) with literal `c` and leaves the cursor one byte
further. -/
theorem NextToken_greedy_pair (ws rest : List Nat) (c : Nat) (two one : Token) (fuel : Nat)
    (hws : ∀ b ∈ ws, isWhitespace b = true)
    (hc : (c, two, one) ∈ [(58, ASSIGN, COLON), (33, NEQ, NOT), (60, LEQ, LSS), (62, GEQ, GTR)])
    (hf : (ws ++ c :: rest).length < fuel) :
    (rest.head? = some 61 →
      Lexer.NextToken fuel (New (ws ++ c :: rest)) = .ok
        ({ Kind := two, Literal := [c, 61], Name := some two },
          atPos (ws ++ c :: rest) (ws.length + 2)))
    ∧ (rest.head? ≠ some 61 →
      Lexer.NextToken fuel (New (ws ++ c :: rest)) = .ok
        ({ Kind := one, Literal := [c], Name := some one },
          atPos (ws ++ c :: rest) (ws.length + 1))) := by
  have hcw : ∀ b, (c :: rest).head? = some b → isWhitespace b = false := by
    intro b hb
    simp only [List.head?_cons, Option.some.injEq] at hb
    subst hb
    simp only [List.mem_cons, Prod.mk.injEq, List.mem_singleton, List.not_mem_nil, or_false] at hc
    rcases hc with ⟨rfl, _⟩ | ⟨rfl, _⟩ | ⟨rfl, _⟩ | ⟨rfl, _⟩ <;> rfl
  have hrun := runLength_prefix isWhitespace ws (c :: rest) hws hcw
  have hb0 : byteAt (ws ++ c :: rest) ws.length = c := by
    rw [byteAt_append_length]; rfl
  have hb1 := byteAt_append_succ ws c rest
  rw [New_eq_atPos, NextToken_atPos _ _ _ hf]
  unfold scanAt scanFrom
  simp only [hrun, Nat.zero_add, hb0, hb1]
  simp only [List.mem_cons, Prod.mk.injEq, List.mem_singleton, List.not_mem_nil, or_false] at hc
  constructor
  · intro h61
    have h61' : rest.head?.getD 0 = 61 := by rw [h61]; rfl
    rcases hc with ⟨rfl, rfl, rfl⟩ | ⟨rfl, rfl, rfl⟩ | ⟨rfl, rfl, rfl⟩ | ⟨rfl, rfl, rfl⟩ <;>
      simp [h61', pairKind, isLetter, isDigit, newToken, runeBytes, Except.map]
  · intro h61
    have h61' : ¬ rest.head?.getD 0 = 61 := by
      cases hh : rest.head? with
      | none => simp
      | some x =>
        rw [hh] at h61
        simpa using h61
    rcases hc with ⟨rfl, rfl, rfl⟩ | ⟨rfl, rfl, rfl⟩ | ⟨rfl, rfl, rfl⟩ | ⟨rfl, rfl, rfl⟩ <;>
      simp [h61', pairKind, charKind, isLetter, isDigit, newToken, runeBytes, Except.map]

theorem NextToken_greedy_pair_witness :
    Lexer.NextToken 10 (New (ascii "  <= 1")) = .ok
        ({ Kind := LEQ, Literal := ascii "<=", Name := some LEQ }, atPos (ascii "  <= 1") 4)
    ∧ Lexer.NextToken 10 (New (ascii " <1")) = .ok
        ({ Kind := LSS, Literal := ascii "<", Name := some LSS }, atPos (ascii " <1") 2) :=
  ⟨(NextToken_greedy_pair (ascii "  ") (ascii "= 1") 60 LEQ LSS 10 (by decide) (by decide)
      (by decide)).1 rfl,
   (NextToken_greedy_pair (ascii " ") (ascii "1") 60 LEQ LSS 10 (by decide) (by decide)
      (by decide)).2 (by decide)⟩

theorem isLetter_not_whitespace (c : Nat) (h : isLetter c = true) : isWhitespace c = false := by
  simp only [isLetter, Bool.or_eq_true, Bool.and_eq_true, decide_eq_true_eq, beq_iff_eq] at h
  cases hw : isWhitespace c with
  | false => rfl
  | true =>
    simp only [isWhitespace, Bool.or_eq_true, beq_iff_eq] at hw
    omega

theorem isLetter_not_digit (c : Nat) (h : isLetter c = true) : isDigit c = false := by
  simp only [isLetter, Bool.or_eq_true, Bool.and_eq_true, decide_eq_true_eq, beq_iff_eq] at h
  cases hd : isDigit c with
  | false => rfl
  | true =>
    simp only [isDigit, Bool.and_eq_true, decide_eq_true_eq] at hd
    omega

/-- C12: when the first byte after the leading whitespace is an ASCII letter or underscore,
`NextToken` returns the unit whose literal is the longest run of letters and underscores
that starts there (non-empty, free of digits, containing every all-letter prefix), whose
kind is the keyword lookup of that literal, and it leaves the cursor on the first byte
after the run, which is not a letter. -/
theorem NextToken_identifier_maximal (ws r : List Nat) (c : Nat) (fuel : Nat)
    (hws : ∀ b ∈ ws, isWhitespace b = true)
    (hhead : r.head? = some c) (hc : isLetter c = true)
    (hf : (ws ++ r).length < fuel) :
    Lexer.NextToken fuel (New (ws ++ r)) = .ok
        ({ Kind := Lookup (r.takeWhile isLetter), Literal := r.takeWhile isLetter, Name := none },
          atPos (ws ++ r) (ws.length + (r.takeWhile isLetter).length))
    ∧ r.takeWhile isLetter ≠ []
    ∧ (∀ b ∈ r.takeWhile isLetter, isLetter b = true ∧ isDigit b = false)
    ∧ (∀ pre, pre <+: r → (∀ b ∈ pre, isLetter b = true) → pre <+: r.takeWhile isLetter)
    ∧ (atPos (ws ++ r) (ws.length + (r.takeWhile isLetter).length)).ch
        = (r.dropWhile isLetter).head?.getD 0
    ∧ isLetter ((r.dropWhile isLetter).head?.getD 0) = false := by
  obtain ⟨tail, rfl⟩ : ∃ tail, r = c :: tail := by
    cases r with
    | nil => simp at hhead
    | cons x tail =>
      simp only [List.head?_cons, Option.some.injEq] at hhead
      exact ⟨tail, by rw [hhead]⟩
  have hcw : ∀ b, (c :: tail).head? = some b → isWhitespace b = false := by
    intro b hb
    simp only [List.head?_cons, Option.some.injEq] at hb
    subst hb
    exact isLetter_not_whitespace _ hc
  have hrun := runLength_prefix isWhitespace ws (c :: tail) hws hcw
  have hb0 : byteAt (ws ++ c :: tail) ws.length = c := by
    rw [byteAt_append_length]; rfl
  have hdrop : (ws ++ c :: tail).drop ws.length = c :: tail := List.drop_left ws (c :: tail)
  have hc0 : ¬ c = 0 := by rintro rfl; exact absurd hc (by decide)
  have hc34 : ¬ c = 34 := by rintro rfl; exact absurd hc (by decide)
  have hsplit := List.takeWhile_append_dropWhile isLetter (c :: tail)
  refine ⟨?_, ?_, ?_, ?_, ?_, ?_⟩
  · rw [New_eq_atPos, NextToken_atPos _ _ _ hf]
    unfold scanAt scanFrom
    have hlen : runLength isLetter (ws ++ c :: tail) ws.length
        = ((c :: tail).takeWhile isLetter).length := by
      unfold runLength
      rw [hdrop]
    simp only [hrun, Nat.zero_add, hb0, if_neg hc0, if_neg hc34, hc, if_true, take_runLength,
      hdrop, hlen, Except.map]
    rw [take_length_takeWhile]
  · rw [List.takeWhile_cons, hc]
    simp
  · intro b hb
    have hl := List.mem_takeWhile_imp hb
    exact ⟨hl, isLetter_not_digit b hl⟩
  · rintro pre ⟨s, hs⟩ hpre
    rw [← hs, List.takeWhile_append_of_pos hpre]
    exact List.prefix_append _ _
  · show byteAt (ws ++ c :: tail) (ws.length + (List.takeWhile isLetter (c :: tail)).length) = _
    have h := byteAt_append_length (ws ++ (c :: tail).takeWhile isLetter)
      ((c :: tail).dropWhile isLetter)
    rw [List.append_assoc, hsplit, List.length_append] at h
    exact h
  · cases hdw : (c :: tail).dropWhile isLetter with
    | nil => rfl
    | cons x rest =>
      have hne : (c :: tail).dropWhile isLetter ≠ [] := by rw [hdw]; simp
      have := List.head_dropWhile_not isLetter (c :: tail) hne
      simp only [hdw, List.head_cons] at this
      simpa using this

theorem NextToken_identifier_maximal_witness :
    Lexer.NextToken 20 (New (ascii " let_x1 := 2")) = .ok
      ({ Kind := IDENT, Literal := ascii "let_x", Name := none }, atPos (ascii " let_x1 := 2") 6) :=
  (NextToken_identifier_maximal (ascii " ") (ascii "let_x1 := 2") 108 20 (by decide) rfl
    (by decide) (by decide)).1

/-- C13 at the failing input: for the non-ASCII byte 0xE9 `NextToken` returns an ILLEGAL
unit and moves the cursor one byte on, but the literal is the two-byte UTF-8 encoding
0xC3 0xA9 that Go's `string(ch)` produces, not the one-byte string. -/
theorem NextToken_illegal_non_ascii :
    Lexer.NextToken 2 (New [233]) = .ok
      ({ Kind := ILLEGAL, Literal := [195, 169], Name := some ILLEGAL }, atPos [233] 1) := by
  decide

/-- Every byte from 0x80 on that starts the input gives an ILLEGAL unit with a two-byte
literal, and one byte is consumed. -/
theorem NextToken_illegal_high (b : Nat) (rest : List Nat) (fuel : Nat) (hb : 128 ≤ b)
    (hf : (b :: rest).length < fuel) :
    Lexer.NextToken fuel (New (b :: rest)) = .ok
      ({ Kind := ILLEGAL, Literal := [192 + b / 64, 128 + b % 64], Name := some ILLEGAL },
        atPos (b :: rest) 1) := by
  have hrun : runLength isWhitespace (b :: rest) 0 = 0 :=
    runLength_of_not _ _ _ (by
      show isWhitespace b = false
      cases hw : isWhitespace b with
      | false => rfl
      | true =>
        simp only [isWhitespace, Bool.or_eq_true, beq_iff_eq] at hw
        omega)
  have hb0 : byteAt (b :: rest) 0 = b := rfl
  have hl : isLetter b = false := by
    cases h : isLetter b with
    | false => rfl
    | true =>
      simp only [isLetter, Bool.or_eq_true, Bool.and_eq_true, decide_eq_true_eq, beq_iff_eq] at h
      omega
  have hd : isDigit b = false := by
    cases h : isDigit b with
    | false => rfl
    | true =>
      simp only [isDigit, Bool.and_eq_true, decide_eq_true_eq] at h
      omega
  have hp : pairKind b = none := by
    unfold pairKind
    rw [if_neg (by omega), if_neg (by omega), if_neg (by omega), if_neg (by omega)]
  have hk : charKind b = ILLEGAL := by
    unfold charKind
    simp only [if_neg (show ¬ b = 58 by omega), if_neg (show ¬ b = 61 by omega),
      if_neg (show ¬ b = 43 by omega), if_neg (show ¬ b = 45 by omega),
      if_neg (show ¬ b = 33 by omega), if_neg (show ¬ b = 47 by omega),
      if_neg (show ¬ b = 42 by omega), if_neg (show ¬ b = 60 by omega),
      if_neg (show ¬ b = 62 by omega), if_neg (show ¬ b = 59 by omega),
      if_neg (show ¬ b = 40 by omega), if_neg (show ¬ b = 41 by omega),
      if_neg (show ¬ b = 44 by omega), if_neg (show ¬ b = 123 by omega),
      if_neg (show ¬ b = 125 by omega), if_neg (show ¬ b = 91 by omega),
      if_neg (show ¬ b = 93 by omega)]
  rw [New_eq_atPos, NextToken_atPos _ _ _ hf]
  unfold scanAt scanFrom
  simp only [hrun, Nat.add_zero, hb0, if_neg (show ¬ b = 0 by omega),
    if_neg (show ¬ b = 34 by omega), hl, hd, hp, hk, Option.isSome_none, Bool.false_eq_true,
    false_and, if_false, Except.map, newToken, runeBytes, List.foldl_cons, List.foldl_nil,
    List.nil_append, if_neg (show ¬ b < 128 by omega)]

/-- The bytes below 0x80 that belong to no unit class give an ILLEGAL unit whose literal is
the byte itself. -/
theorem NextToken_illegal_ascii (b : Nat) (rest : List Nat) (fuel : Nat) (hb : b < 128)
    (h0 : b ≠ 0) (hrecog : recognized b = false) (hf : (b :: rest).length < fuel) :
    Lexer.NextToken fuel (New (b :: rest)) = .ok
      ({ Kind := ILLEGAL, Literal := [b], Name := some ILLEGAL }, atPos (b :: rest) 1) := by
  simp only [recognized, Bool.or_eq_false_iff, beq_eq_false_iff_ne, ne_eq] at hrecog
  obtain ⟨⟨⟨⟨hw, hop⟩, h34⟩, hl⟩, hd⟩ := hrecog
  simp only [isOperatorChar, Bool.or_eq_false_iff, beq_eq_false_iff_ne, ne_eq] at hop
  obtain ⟨⟨⟨⟨⟨⟨⟨⟨⟨⟨⟨⟨⟨⟨⟨⟨h1, h2⟩, h3⟩, h4⟩, h5⟩, h6⟩, h7⟩, h8⟩, h9⟩, h10⟩, h11⟩, h12⟩, h13⟩,
    h14⟩, h15⟩, h16⟩, h17⟩ := hop
  have hrun : runLength isWhitespace (b :: rest) 0 = 0 := runLength_of_not _ _ _ hw
  have hb0 : byteAt (b :: rest) 0 = b := rfl
  have hp : pairKind b = none := by
    unfold pairKind
    rw [if_neg h1, if_neg h5, if_neg h8, if_neg h9]
  have hk : charKind b = ILLEGAL := by
    unfold charKind
    simp only [if_neg h1, if_neg h2, if_neg h3, if_neg h4, if_neg h5, if_neg h6, if_neg h7,
      if_neg h8, if_neg h9, if_neg h10, if_neg h11, if_neg h12, if_neg h13, if_neg h14,
      if_neg h15, if_neg h16, if_neg h17]
  rw [New_eq_atPos, NextToken_atPos _ _ _ hf]
  unfold scanAt scanFrom
  simp only [hrun, Nat.add_zero, hb0, if_neg h0, if_neg h34, hl, hd, hp, hk, Option.isSome_none,
    Bool.false_eq_true, false_and, if_false, Except.map, newToken, runeBytes, List.foldl_cons,
    List.foldl_nil, List.nil_append, if_pos hb]

/-- A scan moves the cursor forward, and a unit other than end-of-input starts inside the
input. -/
theorem scanFrom_advances (input : List Nat) (p q : Nat) (tok : Lexeme)
    (h : scanFrom input p = .ok (tok, q)) :
    p < q ∧ (tok.Kind ≠ EOF → p < input.length) := by
  unfold scanFrom at h
  simp only at h
  by_cases h0 : byteAt input p = 0
  · rw [if_pos h0] at h
    simp only [Except.ok.injEq, Prod.mk.injEq] at h
    obtain ⟨rfl, rfl⟩ := h
    exact ⟨by omega, fun hk => absurd rfl hk⟩
  have hp : p < input.length := lt_length_of_byteAt_ne_zero input p h0
  refine ⟨?_, fun _ => hp⟩
  rw [if_neg h0] at h
  split_ifs at h with h34 hmem hl hd hpair
  all_goals simp only [Except.ok.injEq, Prod.mk.injEq, reduceCtorEq] at h
  · omega
  · have := runLength_succ isLetter input p hp hl
    omega
  · have := runLength_succ isDigit input p hp hd
    omega
  · omega
  · omega

theorem after_atPos (input : List Nat) :
    ∀ (n p : Nat) (l : Lexer), Lexer.after n (atPos input p) = .ok l →
      ∃ q, p + n ≤ q ∧ l = atPos input q := by
  intro n
  induction n with
  | zero =>
    intro p l h
    simp only [Lexer.after, pure, Except.pure, Except.ok.injEq] at h
    exact ⟨p, le_refl _, h.symm⟩
  | succ n ih =>
    intro p l h
    simp only [Lexer.after, next_atPos, scanAt, bind, Except.bind, Except.map] at h
    cases hs : scanFrom input (p + runLength isWhitespace input p) with
    | error e => rw [hs] at h; simp at h
    | ok r =>
      rw [hs] at h
      simp only at h
      obtain ⟨q, hq, hl⟩ := ih r.2 l h
      have := (scanFrom_advances input _ r.2 r.1 hs).1
      exact ⟨q, by omega, hl⟩

theorem tokens_count_le (input : List Nat) :
    ∀ (n p : Nat) (toks : List Lexeme), Lexer.tokens n (atPos input p) = .ok toks →
      (∀ t ∈ toks, t.Kind ≠ EOF) → n ≤ input.length - p := by
  intro n
  induction n with
  | zero => intro p toks _ _; exact Nat.zero_le _
  | succ n ih =>
    intro p toks h hall
    simp only [Lexer.tokens, next_atPos, scanAt, bind, Except.bind, Except.map] at h
    cases hs : scanFrom input (p + runLength isWhitespace input p) with
    | error e => rw [hs] at h; simp at h
    | ok r =>
      rw [hs] at h
      simp only at h
      cases ht : Lexer.tokens n (atPos input r.2) with
      | error e => rw [ht] at h; simp at h
      | ok rest =>
        rw [ht] at h
        simp only [pure, Except.pure, Except.ok.injEq] at h
        subst h
        have hadv := scanFrom_advances input _ r.2 r.1 hs
        have hlt := hadv.2 (hall r.1 (List.mem_cons_self _ _))
        have hrec := ih r.2 rest ht (fun t ht' => hall t (List.mem_cons_of_mem _ ht'))
        omega

/-- C18: in every state reached from `New(input)` by `NextToken` calls, a call that returns
leaves the cursor strictly further than it was (also at end-of-input). A unit other than
end-of-input starts inside the input: the position reached by skipping the whitespace run
from the old cursor is below `len(input)`, holds a byte that is neither whitespace nor the
sentinel, lies before the new cursor, and the unit returned is the one scanned from that
position. A run of calls that returns no end-of-input unit is at most `len(input)` calls
long. -/
theorem cursor_strictly_advances (input : List Nat) (n : Nat) (l l' : Lexer) (tok : Lexeme)
    (hreach : Lexer.after n (New input) = .ok l) (hcall : l.next = .ok (tok, l')) :
    l.position < l'.position
    ∧ n ≤ l.position
    ∧ l'.input = input
    ∧ (tok.Kind ≠ EOF →
        l.position + runLength isWhitespace input l.position < input.length
        ∧ l.position + runLength isWhitespace input l.position < l'.position
        ∧ isWhitespace (byteAt input (l.position + runLength isWhitespace input l.position))
            = false
        ∧ byteAt input (l.position + runLength isWhitespace input l.position) ≠ 0
        ∧ scanFrom input (l.position + runLength isWhitespace input l.position)
            = .ok (tok, l'.position))
    ∧ (∀ (k : Nat) (toks : List Lexeme), Lexer.tokens k (New input) = .ok toks →
        (∀ t ∈ toks, t.Kind ≠ EOF) → k ≤ input.length) := by
  rw [New_eq_atPos] at hreach
  obtain ⟨p, hnp, rfl⟩ := after_atPos input n 0 l hreach
  simp only [next_atPos, scanAt, Except.map] at hcall
  cases hs : scanFrom input (p + runLength isWhitespace input p) with
  | error e => rw [hs] at hcall; simp at hcall
  | ok r =>
    rw [hs] at hcall
    simp only [Except.ok.injEq, Prod.mk.injEq] at hcall
    obtain ⟨rfl, rfl⟩ := hcall
    have hadv := scanFrom_advances input _ r.2 r.1 hs
    refine ⟨?_, ?_, rfl, ?_, ?_⟩
    · show p < r.2
      omega
    · show n ≤ p
      omega
    · intro hk
      show p + runLength isWhitespace input p < input.length
        ∧ p + runLength isWhitespace input p < r.2
        ∧ isWhitespace (byteAt input (p + runLength isWhitespace input p)) = false
        ∧ byteAt input (p + runLength isWhitespace input p) ≠ 0
        ∧ scanFrom input (p + runLength isWhitespace input p) = .ok (r.1, r.2)
      refine ⟨hadv.2 hk, hadv.1, ?_, ?_, hs⟩
      · cases hb : isWhitespace (byteAt input (p + runLength isWhitespace input p)) with
        | false => rfl
        | true =>
          exact absurd (byteAt_after_run isWhitespace input (input.length - p) p (le_refl _) hb)
            (by decide)
      · intro hz
        rw [scanFrom_of_zero input _ hz] at hs
        simp only [Except.ok.injEq] at hs
        rw [← hs] at hk
        exact hk rfl
    · intro k toks hk hall
      rw [New_eq_atPos] at hk
      exact tokens_count_le input k 0 toks hk hall

theorem cursor_strictly_advances_witness :
    Lexer.after 1 (New (ascii "x  ab")) = .ok (atPos (ascii "x  ab") 1)
    ∧ (atPos (ascii "x  ab") 1).next
        = .ok (⟨IDENT, ascii "ab", none⟩, atPos (ascii "x  ab") 5)
    ∧ runLength isWhitespace (ascii "x  ab") 1 = 2
    ∧ ((atPos (ascii "x  ab") 1).position < (atPos (ascii "x  ab") 5).position
      ∧ 1 ≤ (atPos (ascii "x  ab") 1).position
      ∧ (atPos (ascii "x  ab") 5).input = ascii "x  ab"
      ∧ ((⟨IDENT, ascii "ab", none⟩ : Lexeme).Kind ≠ EOF →
          (atPos (ascii "x  ab") 1).position
              + runLength isWhitespace (ascii "x  ab") (atPos (ascii "x  ab") 1).position
            < (ascii "x  ab").length
          ∧ (atPos (ascii "x  ab") 1).position
              + runLength isWhitespace (ascii "x  ab") (atPos (ascii "x  ab") 1).position
            < (atPos (ascii "x  ab") 5).position
          ∧ isWhitespace (byteAt (ascii "x  ab") ((atPos (ascii "x  ab") 1).position
              + runLength isWhitespace (ascii "x  ab") (atPos (ascii "x  ab") 1).position))
            = false
          ∧ byteAt (ascii "x  ab") ((atPos (ascii "x  ab") 1).position
              + runLength isWhitespace (ascii "x  ab") (atPos (ascii "x  ab") 1).position) ≠ 0
          ∧ scanFrom (ascii "x  ab") ((atPos (ascii "x  ab") 1).position
              + runLength isWhitespace (ascii "x  ab") (atPos (ascii "x  ab") 1).position)
            = .ok (⟨IDENT, ascii "ab", none⟩, (atPos (ascii "x  ab") 5).position))
      ∧ (∀ (k : Nat) (toks : List Lexeme), Lexer.tokens k (New (ascii "x  ab")) = .ok toks →
          (∀ t ∈ toks, t.Kind ≠ EOF) → k ≤ (ascii "x  ab").length)) :=
  ⟨by decide, by decide, by decide,
    cursor_strictly_advances (ascii "x  ab") 1 (atPos (ascii "x  ab") 1)
      (atPos (ascii "x  ab") 5) ⟨IDENT, ascii "ab", none⟩ (by decide) (by decide)⟩

/-! ## Further properties of the parser -/

theorem parseUnaryExpr_plain {σ : Type} (next : σ → Except Fail (Lexeme × σ)) (p : Parser σ)
    (h : p.curToken.Kind.leadsUnary = false) :
    Parser.parseUnaryExpr next p = .ok (Expression.unary plusUnit p.curToken, p) := by
  have hn : ¬ (p.curToken.Kind = ADD ∨ p.curToken.Kind = SUBT ∨ p.curToken.Kind = NOT
      ∨ p.curToken.Kind = XOR ∨ p.curToken.Kind = AND) := by
    intro hk
    rcases hk with hk | hk | hk | hk | hk <;> rw [hk] at h <;> exact absurd h (by decide)
  unfold Parser.parseUnaryExpr
  simp only [if_neg hn, bind, Except.bind, pure, Except.pure]
  rfl

theorem parseUnaryExpr_signed {σ : Type} (next : σ → Except Fail (Lexeme × σ)) (p : Parser σ)
    (tok : Lexeme) (l' : σ) (h : p.curToken.Kind.leadsUnary = true)
    (hnext : next p.l = .ok (tok, l')) :
    Parser.parseUnaryExpr next p = .ok (Expression.unary p.curToken p.peekToken,
      { p with curToken := p.peekToken, peekToken := tok, l := l' }) := by
  have hp : p.curToken.Kind = ADD ∨ p.curToken.Kind = SUBT ∨ p.curToken.Kind = NOT
      ∨ p.curToken.Kind = XOR ∨ p.curToken.Kind = AND := by
    cases hk : p.curToken.Kind <;> rw [hk] at h <;> first | exact absurd h (by decide) | simp
  unfold Parser.parseUnaryExpr
  simp only [if_pos hp, Parser.nextToken, hnext, bind, Except.bind, pure, Except.pure]

/-- C19: `parseUnaryExpr` builds one leaf term. On a current unit of kind ADD, SUBT, NOT, XOR
or AND the operator is that unit, the operand is the unit that followed it and the cursor
has moved by one unit; on any other current unit the operator is the default `+` unit, the
operand is the current unit and the parser is unchanged. Either way the operand is the
current unit of the parser returned. -/
theorem parseUnaryExpr_leaf {σ : Type} (next : σ → Except Fail (Lexeme × σ)) (p : Parser σ) :
    (p.curToken.Kind.leadsUnary = true → ∀ tok l', next p.l = .ok (tok, l') →
      Parser.parseUnaryExpr next p = .ok (Expression.unary p.curToken p.peekToken,
        { p with curToken := p.peekToken, peekToken := tok, l := l' }))
    ∧ (p.curToken.Kind.leadsUnary = false →
      Parser.parseUnaryExpr next p = .ok (Expression.unary plusUnit p.curToken, p))
    ∧ (∀ e p', Parser.parseUnaryExpr next p = .ok (e, p') →
      ∃ operator, e = Expression.unary operator p'.curToken) := by
  refine ⟨fun h tok l' hnext => parseUnaryExpr_signed next p tok l' h hnext,
    fun h => parseUnaryExpr_plain next p h, ?_⟩
  intro e p' hres
  cases h : p.curToken.Kind.leadsUnary with
  | false =>
    rw [parseUnaryExpr_plain next p h] at hres
    simp only [Except.ok.injEq, Prod.mk.injEq] at hres
    obtain ⟨rfl, rfl⟩ := hres
    exact ⟨plusUnit, rfl⟩
  | true =>
    cases hn : next p.l with
    | error err =>
      have hp : p.curToken.Kind = ADD ∨ p.curToken.Kind = SUBT ∨ p.curToken.Kind = NOT
          ∨ p.curToken.Kind = XOR ∨ p.curToken.Kind = AND := by
        cases hk : p.curToken.Kind <;> rw [hk] at h <;> first | exact absurd h (by decide) | simp
      unfold Parser.parseUnaryExpr at hres
      simp [if_pos hp, Parser.nextToken, hn, bind, Except.bind] at hres
    | ok r =>
      rw [parseUnaryExpr_signed next p r.1 r.2 h hn] at hres
      simp only [Except.ok.injEq, Prod.mk.injEq] at hres
      obtain ⟨rfl, rfl⟩ := hres
      exact ⟨p.curToken, rfl⟩

theorem parseUnaryExpr_leaf_witness :
    Parser.parseUnaryExpr streamNext
        (onStream { Objects := [] }
          [⟨SUBT, ascii "-", some SUBT⟩, ⟨INT, ascii "1", none⟩, ⟨ADD, ascii "+", some ADD⟩,
           ⟨INT, ascii "2", none⟩])
      = .ok (Expression.unary ⟨SUBT, ascii "-", some SUBT⟩ ⟨INT, ascii "1", none⟩,
          onStream { Objects := [] }
            [⟨INT, ascii "1", none⟩, ⟨ADD, ascii "+", some ADD⟩, ⟨INT, ascii "2", none⟩])
    ∧ Parser.parseUnaryExpr streamNext
        (onStream { Objects := [] } [⟨INT, ascii "1", none⟩, ⟨ADD, ascii "+", some ADD⟩])
      = .ok (Expression.unary plusUnit ⟨INT, ascii "1", none⟩,
          onStream { Objects := [] } [⟨INT, ascii "1", none⟩, ⟨ADD, ascii "+", some ADD⟩]) :=
  ⟨(parseUnaryExpr_leaf streamNext (onStream { Objects := [] }
      [⟨SUBT, ascii "-", some SUBT⟩, ⟨INT, ascii "1", none⟩, ⟨ADD, ascii "+", some ADD⟩,
       ⟨INT, ascii "2", none⟩])).1 rfl ⟨ADD, ascii "+", some ADD⟩ [⟨INT, ascii "2", none⟩] rfl,
   (parseUnaryExpr_leaf streamNext (onStream { Objects := [] }
      [⟨INT, ascii "1", none⟩, ⟨ADD, ascii "+", some ADD⟩])).2.1 rfl⟩

theorem parseStatement_skip {σ : Type} (next : σ → Except Fail (Lexeme × σ)) (fuel : Nat)
    (p : Parser σ) (h1 : p.curToken.Kind ≠ LET) (h2 : p.curToken.Kind ≠ LPAREN)
    (h3 : p.curToken.Kind ≠ INT) :
    Parser.parseStatement next fuel p = .ok (none, p) := by
  unfold Parser.parseStatement
  cases hk : p.curToken.Kind <;> first
    | exact absurd hk h1
    | exact absurd hk h2
    | exact absurd hk h3
    | rfl

theorem curKind_onStream_nil (scope : Scope) : (onStream scope []).curToken.Kind = EOF := rfl

theorem ParseProgramLoop_skips (scope : Scope) :
    ∀ (ts : List Lexeme) (fuel : Nat) (program : Program), ts.length < fuel →
      (∀ t ∈ ts, t.Kind ≠ LET ∧ t.Kind ≠ LPAREN ∧ t.Kind ≠ INT) →
      ∃ p', Parser.ParseProgramLoop streamNext fuel program (onStream scope ts)
          = .ok (program, p') ∧ p'.topScope = scope ∧ p'.curToken.Kind = EOF := by
  intro ts
  induction ts with
  | nil =>
    intro fuel program hf _
    obtain ⟨fuel, rfl⟩ : ∃ f, fuel = f + 1 := ⟨fuel - 1, by omega⟩
    refine ⟨onStream scope [], ?_, rfl, rfl⟩
    rw [Parser.ParseProgramLoop]
    simp [curKind_onStream_nil, pure, Except.pure]
  | cons t ts ih =>
    intro fuel program hf hts
    obtain ⟨fuel, rfl⟩ : ∃ f, fuel = f + 1 := ⟨fuel - 1, by omega⟩
    obtain ⟨h1, h2, h3⟩ := hts t (List.mem_cons_self _ _)
    by_cases hk : t.Kind = EOF
    · refine ⟨onStream scope (t :: ts), ?_, ?_, ?_⟩
      · rw [Parser.ParseProgramLoop]
        simp [curToken_onStream, hk, pure, Except.pure]
      · cases ts <;> rfl
      · rw [curToken_onStream]; exact hk
    · obtain ⟨p', hp', hs, hc⟩ := ih fuel program (by simpa using hf)
        (fun x hx => hts x (List.mem_cons_of_mem _ hx))
      refine ⟨p', ?_, hs, hc⟩
      rw [Parser.ParseProgramLoop]
      have hskip := parseStatement_skip streamNext fuel (onStream scope (t :: ts))
        (by rw [curToken_onStream]; exact h1) (by rw [curToken_onStream]; exact h2)
        (by rw [curToken_onStream]; exact h3)
      simp only [curToken_onStream, ne_eq, hk, not_false_eq_true, if_true, hskip, bind,
        Except.bind, nextToken_onStream]
      exact hp'

/-- C17: on a current unit whose kind is not LET, LPAREN or INT, `parseStatement` returns no
statement and the parser unchanged (same cursor, same scope table), without failing; and on
a stream of units none of which is LET, LPAREN or INT, `ParseProgram` returns a program
with no statement, with the cursor on end-of-input and the scope table untouched. -/
theorem parseStatement_silent_skip (scope : Scope) (ts : List Lexeme)
    (hts : ∀ t ∈ ts, t.Kind ≠ LET ∧ t.Kind ≠ LPAREN ∧ t.Kind ≠ INT) :
    (∀ (σ : Type) (next : σ → Except Fail (Lexeme × σ)) (fuel : Nat) (p : Parser σ),
      p.curToken.Kind ≠ LET → p.curToken.Kind ≠ LPAREN → p.curToken.Kind ≠ INT →
      Parser.parseStatement next fuel p = .ok (none, p))
    ∧ ∃ p', Parser.ParseProgram streamNext (ts.length + 1) (onStream scope ts)
        = .ok ({ Statements := [] }, p') ∧ p'.topScope = scope ∧ p'.curToken.Kind = EOF :=
  ⟨fun _ next fuel p h1 h2 h3 => parseStatement_skip next fuel p h1 h2 h3,
    ParseProgramLoop_skips scope ts (ts.length + 1) { Statements := [] } (Nat.lt_succ_self _) hts⟩

theorem parseStatement_silent_skip_witness :
    ∃ p', Parser.ParseProgram streamNext 5
        (onStream { Objects := [] }
          [⟨CONST, ascii "const", none⟩, ⟨IDENT, ascii "x", none⟩,
           ⟨SEMICOLON, ascii ";", some SEMICOLON⟩, ⟨ILLEGAL, ascii "@", some ILLEGAL⟩])
        = .ok ({ Statements := [] }, p') ∧ p'.topScope = { Objects := [] }
          ∧ p'.curToken.Kind = EOF :=
  (parseStatement_silent_skip { Objects := [] }
    [⟨CONST, ascii "const", none⟩, ⟨IDENT, ascii "x", none⟩,
     ⟨SEMICOLON, ascii ";", some SEMICOLON⟩, ⟨ILLEGAL, ascii "@", some ILLEGAL⟩]
    (by decide)).2

theorem curKind_onStream_head (scope : Scope) (ts : List Lexeme) (k : Token) (hk : EOF ≠ k)
    (hts : ∀ t, ts.head? = some t → t.Kind ≠ k) : (onStream scope ts).curToken.Kind ≠ k := by
  cases ts with
  | nil => exact hk
  | cons t ts =>
    rw [curToken_onStream]
    exact hts t rfl

theorem peekKind_onStream_head (scope : Scope) (c : Lexeme) (ts : List Lexeme) (k : Token)
    (hk : EOF ≠ k) (hts : ∀ t, ts.head? = some t → t.Kind ≠ k) :
    (onStream scope (c :: ts)).peekToken.Kind ≠ k := by
  cases ts with
  | nil => exact hk
  | cons t ts => exact hts t rfl

/-- The first loop of `parseParenExpr` on a run of opening parentheses: the counter goes up
by the length of the run and the last parenthesis is recorded. -/
theorem parenOpenLoop_run (scope : Scope) (ts : List Lexeme)
    (hts : ∀ t, ts.head? = some t → t.Kind ≠ LPAREN) :
    ∀ (lparens : List Lexeme) (fuel : Nat) (counter : Int) (lp : Lexeme),
      lparens.length < fuel → (∀ x ∈ lparens, x.Kind = LPAREN) →
      Parser.parenOpenLoop streamNext fuel counter lp (onStream scope (lparens ++ ts))
        = .ok (counter + lparens.length, (lp :: lparens).getLast (List.cons_ne_nil _ _),
            onStream scope ts) := by
  intro lparens
  induction lparens with
  | nil =>
    intro fuel counter lp hf _
    obtain ⟨fuel, rfl⟩ : ∃ f, fuel = f + 1 := ⟨fuel - 1, by omega⟩
    have hcur := curKind_onStream_head scope ts LPAREN (by decide) hts
    rw [List.nil_append, Parser.parenOpenLoop]
    simp [Parser.tokenIs, hcur, pure, Except.pure]
  | cons x lparens ih =>
    intro fuel counter lp hf hall
    obtain ⟨fuel, rfl⟩ : ∃ f, fuel = f + 1 := ⟨fuel - 1, by omega⟩
    have hx : x.Kind = LPAREN := hall x (List.mem_cons_self _ _)
    rw [List.cons_append, Parser.parenOpenLoop]
    simp only [Parser.tokenIs, curToken_onStream, hx, beq_self_eq_true, if_true, bind,
      Except.bind, nextToken_onStream]
    rw [ih fuel (counter + 1) x (by simpa using hf)
      (fun y hy => hall y (List.mem_cons_of_mem _ hy))]
    simp only [List.length_cons, Nat.cast_add, Nat.cast_one,
      List.getLast_cons (List.cons_ne_nil x lparens)]
    congr 2
    omega

/-- The second loop of `parseParenExpr` with a run of closing parentheses behind the
current unit: the counter goes down by the length of the run and the cursor ends on the
last unit of the run (or stays if the run is empty). -/
theorem parenCloseLoop_run (scope : Scope) (after : List Lexeme)
    (hafter : ∀ t, after.head? = some t → t.Kind ≠ RPAREN) :
    ∀ (rparens : List Lexeme) (fuel : Nat) (counter : Int) (c : Lexeme),
      rparens.length < fuel → (∀ x ∈ rparens, x.Kind = RPAREN) →
      Parser.parenCloseLoop streamNext fuel counter (onStream scope (c :: (rparens ++ after)))
        = .ok (counter - rparens.length,
            onStream scope ((c :: rparens).getLast (List.cons_ne_nil _ _) :: after)) := by
  intro rparens
  induction rparens with
  | nil =>
    intro fuel counter c hf _
    obtain ⟨fuel, rfl⟩ : ∃ f, fuel = f + 1 := ⟨fuel - 1, by omega⟩
    have hpeek := peekKind_onStream_head scope c after RPAREN (by decide) hafter
    rw [List.nil_append, Parser.parenCloseLoop]
    simp [Parser.peekTokenIs, hpeek, pure, Except.pure]
  | cons x rparens ih =>
    intro fuel counter c hf hall
    obtain ⟨fuel, rfl⟩ : ∃ f, fuel = f + 1 := ⟨fuel - 1, by omega⟩
    have hx : x.Kind = RPAREN := hall x (List.mem_cons_self _ _)
    rw [List.cons_append, Parser.parenCloseLoop]
    simp only [Parser.peekTokenIs, peekToken_onStream, hx, beq_self_eq_true, if_true, bind,
      Except.bind, nextToken_onStream]
    rw [ih fuel (counter - 1) x (by simpa using hf)
      (fun y hy => hall y (List.mem_cons_of_mem _ hy))]
    simp only [List.length_cons, Nat.cast_add, Nat.cast_one,
      List.getLast_cons (List.cons_ne_nil x rparens)]
    congr 2
    omega

/-- C20: when `parseParenExpr` consumes a run of k >= 1 opening parentheses, the inner
`parseExpression(RPAREN)` returns, and the peek loop then consumes a run of m closing
parentheses, the call panics with "Paren mismatch" exactly when k - m - 1 > 0; otherwise
it returns, also with surplus closing parentheses (k - m - 1 < 0), with the counter at
k - m - 1 and with `Rparen` set to the unit the cursor is on after the peek loop, whatever
its kind. -/
theorem parseParenExpr_mismatch_iff (scope : Scope) (lparens ts rparens after : List Lexeme)
    (c : Lexeme) (expr : Expression) (fuel : Nat)
    (hl : ∀ x ∈ lparens, x.Kind = LPAREN) (hne : lparens ≠ [])
    (hts : ∀ t, ts.head? = some t → t.Kind ≠ LPAREN)
    (hr : ∀ x ∈ rparens, x.Kind = RPAREN)
    (hafter : ∀ t, after.head? = some t → t.Kind ≠ RPAREN)
    (hfl : lparens.length < fuel) (hfr : rparens.length < fuel)
    (hexpr : Parser.parseExpression streamNext fuel RPAREN (onStream scope ts)
      = .ok (expr, onStream scope (c :: (rparens ++ after)))) :
    Parser.parseParenExpr streamNext (fuel + 1) (onStream scope (lparens ++ ts))
      = if (lparens.length : Int) - rparens.length - 1 > 0 then
          .error (.panic "Paren mismatch")
        else
          .ok (Expression.paren (lparens.getLast hne) expr
              ((c :: rparens).getLast (List.cons_ne_nil _ _)),
            (lparens.length : Int) - rparens.length - 1,
            onStream scope ((c :: rparens).getLast (List.cons_ne_nil _ _) :: after)) := by
  rw [Parser.parseParenExpr, parenOpenLoop_run scope ts hts lparens fuel 0 Lexeme.zero hfl hl]
  simp only [bind, Except.bind, hexpr]
  rw [parenCloseLoop_run scope after hafter rparens fuel _ c hfr hr]
  simp only [Int.zero_add, List.getLast_cons hne, pure, Except.pure, curToken_onStream]

theorem parseParenExpr_mismatch_iff_witness :
    Parser.parseParenExpr streamNext 4
        (onStream { Objects := [] }
          [⟨LPAREN, ascii "(", some LPAREN⟩, ⟨INT, ascii "1", none⟩,
           ⟨RPAREN, ascii ")", some RPAREN⟩, ⟨RPAREN, ascii ")", some RPAREN⟩,
           ⟨SEMICOLON, ascii ";", some SEMICOLON⟩])
      = .ok (Expression.paren ⟨LPAREN, ascii "(", some LPAREN⟩
            (Expression.unary plusUnit ⟨INT, ascii "1", none⟩)
            ⟨RPAREN, ascii ")", some RPAREN⟩,
          -2,
          onStream { Objects := [] }
            [⟨RPAREN, ascii ")", some RPAREN⟩, ⟨SEMICOLON, ascii ";", some SEMICOLON⟩])
    ∧ Parser.parseParenExpr streamNext 4
        (onStream { Objects := [] }
          [⟨LPAREN, ascii "(", some LPAREN⟩, ⟨LPAREN, ascii "(", some LPAREN⟩,
           ⟨INT, ascii "1", none⟩, ⟨SEMICOLON, ascii ";", some SEMICOLON⟩])
      = .error (.panic "Paren mismatch") :=
  ⟨parseParenExpr_mismatch_iff { Objects := [] } [⟨LPAREN, ascii "(", some LPAREN⟩]
      [⟨INT, ascii "1", none⟩, ⟨RPAREN, ascii ")", some RPAREN⟩,
       ⟨RPAREN, ascii ")", some RPAREN⟩, ⟨SEMICOLON, ascii ";", some SEMICOLON⟩]
      [⟨RPAREN, ascii ")", some RPAREN⟩, ⟨RPAREN, ascii ")", some RPAREN⟩]
      [⟨SEMICOLON, ascii ";", some SEMICOLON⟩] ⟨INT, ascii "1", none⟩
      (Expression.unary plusUnit ⟨INT, ascii "1", none⟩) 3
      (by decide) (by decide) (by decide) (by decide) (by decide) (by decide) (by decide) rfl,
   parseParenExpr_mismatch_iff { Objects := [] }
      [⟨LPAREN, ascii "(", some LPAREN⟩, ⟨LPAREN, ascii "(", some LPAREN⟩]
      [⟨INT, ascii "1", none⟩, ⟨SEMICOLON, ascii ";", some SEMICOLON⟩]
      [] [⟨SEMICOLON, ascii ";", some SEMICOLON⟩] ⟨INT, ascii "1", none⟩
      (Expression.unary plusUnit ⟨INT, ascii "1", none⟩) 3
      (by decide) (by decide) (by decide) (by decide) (by decide) (by decide) (by decide) rfl⟩

theorem isOperand_not_leadsUnary (k : Token) (h : k.isOperand = true) :
    k.leadsUnary = false := by
  cases k <;> first | rfl | exact absurd h (by decide)

/-- With the cursor on an operand that is not the terminator and end-of-input as the next
unit, the top-level loop of `parseBinaryExpr` never leaves: each iteration adds the same
operand again and the cursor stays, so no fuel suffices. -/
theorem parseBinaryLoop_stuck {σ : Type} (next : σ → Except Fail (Lexeme × σ))
    (endToken : Token) (prec : Nat) (p : Parser σ)
    (hcur : p.curToken.Kind.isOperand = true) (hend : p.curToken.Kind ≠ endToken)
    (hpeek : p.peekToken.Kind = EOF) :
    ∀ (fuel : Nat) (e : BinaryExpression),
      Parser.parseBinaryLoop next fuel endToken false prec e p = .error .outOfFuel := by
  have hb1 : (p.curToken.Kind == endToken) = false := by simpa using hend
  have hb2 : (p.curToken.Kind == LPAREN) = false := by
    simpa using isOperand_ne_LPAREN _ hcur
  have hop : p.curToken.Kind.IsOpertor = false := isOperand_not_IsOpertor _ hcur
  have hu := parseUnaryExpr_plain next p (isOperand_not_leadsUnary _ hcur)
  have hprec : ∀ n : Nat, ¬ (Token.Precedence EOF > n) := by
    intro n
    show ¬ (0 > n)
    omega
  intro fuel
  induction fuel with
  | zero => intro e; rfl
  | succ fuel ih =>
    intro e
    rw [Parser.parseBinaryLoop]
    simp only [Parser.tokenIs, Parser.peekTokenIs, Parser.peekPrecedence, hb1, hb2, hop, hpeek,
      hu, hprec, ih, Bool.and_false, Bool.false_eq_true, if_false, Bool.false_and,
      beq_self_eq_true, Bool.not_true, bind, Except.bind, pure, Except.pure, decide_False,
      ite_self]

theorem parseExpression_unterminated (scope : Scope) (t1 o t2 : Lexeme)
    (ht1 : t1.Kind.isOperand = true) (ho : o.Kind.IsOpertor = true)
    (ht2 : t2.Kind.isOperand = true) :
    ∀ fuel : Nat, Parser.parseExpression streamNext fuel SEMICOLON (onStream scope [t1, o, t2])
      = .error .outOfFuel := by
  intro fuel
  rcases fuel with _ | _ | _ | _ | fuel
  · rfl
  · rw [Parser.parseExpression]
    simp [Parser.tokenIs, onStream, ho, Parser.parseBinaryExpr, bind, Except.bind]
  · rw [Parser.parseExpression]
    simp [Parser.tokenIs, onStream, ho, Parser.parseBinaryExpr, Parser.parseBinaryLoop, bind,
      Except.bind]
  · rw [Parser.parseExpression]
    simp only [Parser.tokenIs, peekToken_onStream, ho, Bool.or_true, if_true,
      Parser.parseBinaryExpr, bind, Except.bind]
    rw [parseBinaryLoop_operand scope _ SEMICOLON 0 BinaryExpression.zero t1 o _ ht1
      (isOperand_ne_SEMICOLON _ ht1) (IsOpertor_ne_EOF _ ho) rfl (Or.inl rfl)]
    rfl
  · rw [Parser.parseExpression]
    simp only [Parser.tokenIs, peekToken_onStream, ho, Bool.or_true, if_true,
      Parser.parseBinaryExpr, bind, Except.bind]
    rw [parseBinaryLoop_operand scope _ SEMICOLON 0 BinaryExpression.zero t1 o _ ht1
      (isOperand_ne_SEMICOLON _ ht1) (IsOpertor_ne_EOF _ ho) rfl (Or.inl rfl)]
    rw [parseBinaryLoop_operator scope _ SEMICOLON 0
      (BinaryExpression.zero.addSubnode (Expression.unary plusUnit t1)) o t2 _ ho
      (IsOpertor_ne_SEMICOLON _ ho) (isOperand_ne_EOF _ ht2) (Or.inr rfl)]
    rw [parseBinaryLoop_stuck streamNext SEMICOLON 0 (onStream scope [t2]) ht2
      (isOperand_ne_SEMICOLON _ ht2) rfl]

/-- A `let` whose next unit is neither an identifier nor `:=`, or whose identifier is not
followed by `:=`, panics with "Invalid Let assignment". -/
theorem parseStatement_let_invalid {σ : Type} (next : σ → Except Fail (Lexeme × σ))
    (fuel : Nat) (p : Parser σ) (hlet : p.curToken.Kind = LET) :
    (p.peekToken.Kind ≠ IDENT → p.peekToken.Kind ≠ ASSIGN →
      Parser.parseStatement next fuel p = .error (.panic "Invalid Let assignment"))
    ∧ (p.peekToken.Kind = IDENT → ∀ tok l', next p.l = .ok (tok, l') → tok.Kind ≠ ASSIGN →
      Parser.parseStatement next fuel p = .error (.panic "Invalid Let assignment")) := by
  constructor
  · intro h1 h2
    unfold Parser.parseStatement
    rw [hlet]
    simp [Parser.parseLetStatement, Parser.peekTokenIs, h1, h2, bind, Except.bind, pure,
      Except.pure]
  · intro h1 tok l' hnext h2
    unfold Parser.parseStatement
    rw [hlet]
    simp [Parser.parseLetStatement, Parser.peekTokenIs, Parser.nextToken, h1, h2, hnext, bind,
      Except.bind, pure, Except.pure]

/-- C14 at the failing input: on the units `let := 1 + 2` followed by end-of-input, where
the identifier is missing, `parseStatement` does not fail: it goes on to parse the
expression and never returns, whatever the fuel. On `let := 5 ;` it parses the expression
and only then stops, with the runtime panic of reading `Name.Value` through a nil `Name`,
not with "Invalid Let assignment". -/
theorem parseStatement_let_without_name :
    (∀ fuel : Nat, Parser.parseStatement streamNext fuel
        (onStream { Objects := [] }
          [⟨LET, ascii "let", none⟩, ⟨ASSIGN, ascii ":=", some ASSIGN⟩, ⟨INT, ascii "1", none⟩,
           ⟨ADD, ascii "+", some ADD⟩, ⟨INT, ascii "2", none⟩])
      = .error .outOfFuel)
    ∧ Parser.parseStatement streamNext 3
        (onStream { Objects := [] }
          [⟨LET, ascii "let", none⟩, ⟨ASSIGN, ascii ":=", some ASSIGN⟩, ⟨INT, ascii "5", none⟩,
           ⟨SEMICOLON, ascii ";", some SEMICOLON⟩])
      = .error (.panic "invalid memory address or nil pointer dereference") := by
  refine ⟨?_, rfl⟩
  intro fuel
  have hexpr := parseExpression_unterminated { Objects := [] } ⟨INT, ascii "1", none⟩
    ⟨ADD, ascii "+", some ADD⟩ ⟨INT, ascii "2", none⟩ rfl rfl rfl fuel
  unfold Parser.parseStatement
  rw [curToken_onStream]
  simp only [Parser.parseLetStatement, Parser.peekTokenIs, peekToken_onStream, bind, Except.bind,
    pure, Except.pure, nextToken_onStream, hexpr]
  rfl

/-- C15 at the failing input: on the units `1 + 2` followed by end-of-input (the tokens of
the source text `1 + 2`, which lacks the semicolon) `ParseProgram` never returns, whatever
the fuel: the loop of `parseBinaryExpr` keeps running with the cursor on `2`. -/
theorem ParseProgram_unterminated_never_returns :
    (∀ fuel : Nat, Parser.ParseProgram streamNext fuel
        (onStream { Objects := [] }
          [⟨INT, ascii "1", none⟩, ⟨ADD, ascii "+", some ADD⟩, ⟨INT, ascii "2", none⟩])
      = .error .outOfFuel)
    ∧ Lexer.tokens 4 (New (ascii "1 + 2")) = .ok
        [⟨INT, ascii "1", none⟩, ⟨ADD, ascii "+", some ADD⟩, ⟨INT, ascii "2", none⟩, eofUnit]
    ∧ Parser.New streamNext
        [⟨INT, ascii "1", none⟩, ⟨ADD, ascii "+", some ADD⟩, ⟨INT, ascii "2", none⟩]
      = .ok (onStream { Objects := [] }
          [⟨INT, ascii "1", none⟩, ⟨ADD, ascii "+", some ADD⟩, ⟨INT, ascii "2", none⟩]) := by
  refine ⟨?_, by decide, rfl⟩
  intro fuel
  cases fuel with
  | zero => rfl
  | succ fuel =>
    have hexpr := parseExpression_unterminated { Objects := [] } ⟨INT, ascii "1", none⟩
      ⟨ADD, ascii "+", some ADD⟩ ⟨INT, ascii "2", none⟩ rfl rfl rfl fuel
    unfold Parser.ParseProgram
    rw [Parser.ParseProgramLoop]
    unfold Parser.parseStatement
    simp only [curToken_onStream, ne_eq, reduceCtorEq, not_false_eq_true, if_true, bind,
      Except.bind, hexpr]

/-- C16 at the failing input: in `let x := -1 + 2;` the expression of the let statement is
the unary term `-1` only. `parseLetStatement` returns with the cursor on `1` and the units
`+ 2 ;` unread, and `ParseProgram` returns two statements: the let statement and an
expression statement for `2`. -/
theorem parseLetStatement_stops_before_semicolon :
    Lexer.tokens 9 (New (ascii "let x := -1 + 2;")) = .ok
      [⟨LET, ascii "let", none⟩, ⟨IDENT, ascii "x", none⟩, ⟨ASSIGN, ascii ":=", some ASSIGN⟩,
       ⟨SUBT, ascii "-", some SUBT⟩, ⟨INT, ascii "1", none⟩, ⟨ADD, ascii "+", some ADD⟩,
       ⟨INT, ascii "2", none⟩, ⟨SEMICOLON, ascii ";", some SEMICOLON⟩, eofUnit]
    ∧ Parser.parseLetStatement streamNext 2
        (onStream { Objects := [] }
          [⟨LET, ascii "let", none⟩, ⟨IDENT, ascii "x", none⟩, ⟨ASSIGN, ascii ":=", some ASSIGN⟩,
           ⟨SUBT, ascii "-", some SUBT⟩, ⟨INT, ascii "1", none⟩, ⟨ADD, ascii "+", some ADD⟩,
           ⟨INT, ascii "2", none⟩, ⟨SEMICOLON, ascii ";", some SEMICOLON⟩])
      = .ok ({ Token := ⟨LET, ascii "let", none⟩
               Name := some { Token := ⟨IDENT, ascii "x", none⟩, Value := ascii "x" }
               Expr := Expression.unary ⟨SUBT, ascii "-", some SUBT⟩ ⟨INT, ascii "1", none⟩ },
          onStream { Objects := [] }
            [⟨INT, ascii "1", none⟩, ⟨ADD, ascii "+", some ADD⟩, ⟨INT, ascii "2", none⟩,
             ⟨SEMICOLON, ascii ";", some SEMICOLON⟩])
    ∧ parseUnits 6
        [⟨LET, ascii "let", none⟩, ⟨IDENT, ascii "x", none⟩, ⟨ASSIGN, ascii ":=", some ASSIGN⟩,
         ⟨SUBT, ascii "-", some SUBT⟩, ⟨INT, ascii "1", none⟩, ⟨ADD, ascii "+", some ADD⟩,
         ⟨INT, ascii "2", none⟩, ⟨SEMICOLON, ascii ";", some SEMICOLON⟩]
      = .ok
        { Statements :=
            [Statement.letStmt
              { Token := ⟨LET, ascii "let", none⟩
                Name := some { Token := ⟨IDENT, ascii "x", none⟩, Value := ascii "x" }
                Expr := Expression.unary ⟨SUBT, ascii "-", some SUBT⟩ ⟨INT, ascii "1", none⟩ },
             Statement.exprStmt ⟨INT, ascii "2", none⟩
              (Expression.unary plusUnit ⟨INT, ascii "2", none⟩)] } :=
  ⟨by decide, rfl, rfl⟩

end Vtwin
